import Mathlib

/-!
# charm_get: the prompt stage and the sequential install driver

A shallow embedding of `main.go`: the session record `model`, the message
dispatcher `Update`, the renderer `View`, the manifest writer
`createGoModFile` and the fixed package list `getPackages`.

Conventions of the embedding.

* Go `int` is `Int`.  The only arithmetic on it is `len - 1`, `index + 1` with
  `index < len - 1`, and `width - w` on terminal widths, far from the 64-bit range.
* A Go run-time panic (slice index out of range) is the result `none`.
* Side effects performed while `Update` runs (file write, prints to standard
  output) are returned as a list of `Effect`s, in program order; the `tea.Cmd`
  that `Update` returns is the third component and is only scheduled by the
  runtime after `Update` has returned.
* The widgets of the UI framework (text input, spinner, progress bar), the
  styling functions and the result of `os.WriteFile` are external to the
  program: they are the fields of `Env`, and every theorem holds for every `Env`.
  The text input is a single-line widget: an update never brings a newline
  into its value (`Env.textInputSingleLine`).
* A `float64` is the rational number it denotes.  `float64(x) / float64(y)` on
  Go `int`s is `float64Div`: both conversions and the division round to the
  nearest binary64 value, ties to even.
-/

namespace CharmGet

/-! ## `fmt` -/

/-- An operand of a formatting call: a string (also the text of a `Stringer`
or of an `error`) or an integer. -/
inductive FmtArg where
  | str (s : String)
  | int (n : Int)
  deriving DecidableEq, Repr

/-- The expansion of one verb on one operand, for the verbs the program uses:
`%s` and `%v` on text, `%d` and `%v` on integers; `none` for any other pairing. -/
def verbText (v : Char) : FmtArg → Option (List Char)
  | FmtArg.str s => if v = 's' ∨ v = 'v' then some s.data else none
  | FmtArg.int n => if v = 'd' ∨ v = 'v' then some (toString n).data else none

/-- Expansion of a format over its operands.  The flag says that the previous
character was an unconsumed `%`.  A verb with a fitting operand is replaced by
the operand's text, `%%` is a percent sign, every other character is copied. -/
def sprintfAux : Bool → List Char → List FmtArg → List Char
  | false, [], _ => []
  | true, [], _ => ['%']
  | false, c :: rest, args =>
    if c = '%' then sprintfAux true rest args else c :: sprintfAux false rest args
  | true, v :: rest, [] =>
    if v = '%' then '%' :: sprintfAux false rest [] else '%' :: v :: sprintfAux false rest []
  | true, v :: rest, a :: args =>
    if v = '%' then '%' :: sprintfAux false rest (a :: args)
    else
      match verbText v a with
      | some t => t ++ sprintfAux false rest args
      | none => '%' :: v :: sprintfAux false rest (a :: args)

/-- Model of `fmt.Sprintf`. -/
def Sprintf (format : String) (args : List FmtArg) : String :=
  String.mk (sprintfAux false format.data args)

/-- Model of `fmt.Println` on text operands: separated by blanks, newline appended. -/
def Println (args : List String) : String :=
  String.intercalate " " args ++ "\n"

/-! ## Messages, commands, effects -/

/-- Completion notification of one fetch (`installedPkgMsg`); `Err = none` is Go `nil`. -/
structure installedPkgMsg where
  Package : String
  Err : Option String
  deriving DecidableEq, Repr

/-- The messages `Update` can receive.  `key k` is a `tea.KeyMsg` whose
`String()` is `k`; `other` stands for every message type without a case of its
own in the type switch (cursor blink and the like). -/
inductive Msg where
  | key (k : String)
  | windowSize (Width Height : Int)
  | installed (msg : installedPkgMsg)
  | spinnerTick (payload : Nat)
  | progressFrame (payload : Nat)
  | other (payload : Nat)
  deriving DecidableEq, Repr

/-- A command handed back by a widget of the framework: `none` is a nil
command, `some n` some command of the widget.  A widget has no access to package
`main`, so it can neither schedule `downloadAndInstall` nor produce an
`installedPkgMsg`. -/
abbrev WidgetCmd := Option Nat

/-- One elementary `tea.Cmd`. -/
inductive Atom where
  | nil
  | Quit
  | downloadAndInstall (pkg : String)
  | spinnerTick
  | Printf (text : String)
  | widget (c : Nat)
  deriving DecidableEq, Repr

/-- The `tea.Cmd` returned by `Update`: a single command, a `tea.Batch` or a
`tea.Sequence`. -/
inductive Cmd where
  | one (a : Atom)
  | Batch (cs : List Atom)
  | Sequence (cs : List Atom)
  deriving DecidableEq, Repr

/-- A widget command as a `tea.Cmd` atom. -/
def Atom.ofWidget : WidgetCmd → Atom
  | none => Atom.nil
  | some c => Atom.widget c

/-- The elementary commands of a `tea.Cmd`, in order. -/
def Cmd.atoms : Cmd → List Atom
  | .one a => [a]
  | .Batch cs => cs
  | .Sequence cs => cs

/-- The package of a fetch command, if the command is one. -/
def Atom.fetch? : Atom → Option String
  | .downloadAndInstall pkg => some pkg
  | _ => none

/-- The packages for which a command schedules a fetch. -/
def Cmd.fetches (c : Cmd) : List String :=
  c.atoms.filterMap Atom.fetch?

/-- Whether a command contains `tea.Quit`. -/
def Cmd.quits (c : Cmd) : Bool :=
  c.atoms.contains Atom.Quit

/-- A side effect performed synchronously by the program. -/
inductive Effect where
  | writeFile (path content : String) (perm : Nat)
  | print (text : String)
  deriving DecidableEq, Repr

/-- The path and content of a file write, if the effect is one. -/
def Effect.write? : Effect → Option (String × String)
  | Effect.writeFile path content _ => some (path, content)
  | Effect.print _ => none

/-! ## binary64 arithmetic -/

/-- The integer nearest to `n / d`, the even one of the two on a tie (`d > 0`). -/
def roundHalfEven (n d : Nat) : Nat :=
  if 2 * (n % d) < d then n / d
  else if d < 2 * (n % d) then n / d + 1
  else if (n / d) % 2 = 0 then n / d else n / d + 1

/-- The binary exponent of `a / b` for positive `a` and `b`: the `e` with
`2 ^ e ≤ a / b < 2 ^ (e + 1)`. -/
def binExponent (a b : Nat) : Int :=
  if Nat.log2 b ≤ Nat.log2 a then
    if b * 2 ^ (Nat.log2 a - Nat.log2 b) ≤ a then ((Nat.log2 a - Nat.log2 b : Nat) : Int)
    else ((Nat.log2 a - Nat.log2 b : Nat) : Int) - 1
  else
    if b ≤ a * 2 ^ (Nat.log2 b - Nat.log2 a) then -((Nat.log2 b - Nat.log2 a : Nat) : Int)
    else -((Nat.log2 b - Nat.log2 a : Nat) : Int) - 1

/-- The 53-bit significand of the binary64 value nearest to `a / b`: the
quotient scaled by `2 ^ (52 - e)` and rounded to an integer. -/
def binSignificand (a b : Nat) : Nat :=
  if 0 ≤ 52 - binExponent a b then roundHalfEven (a * 2 ^ (52 - binExponent a b).toNat) b
  else roundHalfEven a (b * 2 ^ (binExponent a b - 52).toNat)

/-- The binary64 value nearest to `a / b`, ties to even, for positive `a` and
`b`.  Quotients of 64-bit integers lie in the range of normal numbers, so
neither overflow nor gradual underflow occurs. -/
def float64Quot (a b : Nat) : ℚ :=
  (binSignificand a b : ℚ) * (2 : ℚ) ^ (binExponent a b - 52)

/-- The conversion `float64(n)` of a non-negative integer: exact below `2 ^ 53`,
rounded to 53 significant bits above; the result is again an integer. -/
def float64OfNat (n : Nat) : Nat :=
  if n < 2 ^ 53 then n
  else roundHalfEven n (2 ^ (Nat.log2 n - 52)) * 2 ^ (Nat.log2 n - 52)

/-- The Go expression `float64(x) / float64(y)` on `int`s.  A zero dividend
gives zero; the divisor is never zero where `Update` divides (the slice was
indexed successfully just before), and the model gives zero there too. -/
def float64Div (x y : Int) : ℚ :=
  if x = 0 ∨ y = 0 then 0
  else if (x < 0 ↔ y < 0) then float64Quot (float64OfNat x.natAbs) (float64OfNat y.natAbs)
  else -float64Quot (float64OfNat x.natAbs) (float64OfNat y.natAbs)

/-! ## Widgets and the environment -/

/-- State of `textinput.Model` as far as the program sets or reads it. -/
structure TextInput where
  value : String
  Placeholder : String
  CharLimit : Int
  Width : Int
  focus : Bool
  deriving DecidableEq, Repr

/-- State of `spinner.Model`. -/
structure Spinner where
  frame : Nat
  foreground : String
  deriving DecidableEq, Repr

/-- State of `progress.Model`: the fraction the bar animates towards (a
`float64`, as the rational it denotes), the animation tag, and the options
given at construction. -/
structure Progress where
  targetPercent : ℚ
  tag : Nat
  width : Int
  showPercentage : Bool
  defaultGradient : Bool
  deriving DecidableEq

/-- The external collaborators: widget behaviour, styling, and the file system. -/
structure Env where
  /-- `textinput.Model.Update`. -/
  textInputUpdate : TextInput → Msg → TextInput
  /-- `spinner.Model.Update`. -/
  spinnerUpdate : Spinner → Msg → Spinner × WidgetCmd
  /-- `progress.Model.Update`; the first component is `none` when the returned
  `tea.Model` is not a `progress.Model`. -/
  progressUpdate : Progress → Msg → Option Progress × WidgetCmd
  /-- The frame command returned by `progress.Model.SetPercent`. -/
  progressNextFrame : Progress → WidgetCmd
  /-- The error returned by `os.WriteFile path content`, `none` for `nil`. -/
  writeFileErr : String → String → Option String
  textInputView : TextInput → String
  spinnerView : Spinner → String
  progressView : Progress → String
  /-- `lipgloss.Width`. -/
  lipglossWidth : String → Int
  /-- `currentPkgNameStyle.Render`. -/
  renderPkgName : String → String
  /-- `lipgloss.NewStyle().MaxWidth(w).Render`. -/
  renderMaxWidth : Int → String → String
  /-- `doneStyle.Render`. -/
  renderDone : String → String
  /-- The text of the `checkMark` style. -/
  checkMark : String
  /-- The text input is single-line: typed and pasted newlines are replaced
  before they are stored, so an update never brings one into the value. -/
  textInputSingleLine : ∀ (t : TextInput) (msg : Msg),
    '\n' ∉ t.value.data → '\n' ∉ (textInputUpdate t msg).value.data

/-- `progress.Model.SetPercent`: the target is clamped to `[0, 1]`, the tag
advances, and the next animation frame is requested. -/
def Progress.SetPercent (env : Env) (p : Progress) (v : ℚ) : Progress × WidgetCmd :=
  let p1 : Progress := { p with targetPercent := Max.max 0 (Min.min 1 v), tag := p.tag + 1 }
  (p1, env.progressNextFrame p1)

/-! ## The program -/

/-- The session record. -/
structure model where
  state : Int
  textInput : TextInput
  packages : List String
  index : Int
  width : Int
  height : Int
  spinner : Spinner
  progress : Progress
  done : Bool
  project : String
  err : Option String
  deriving DecidableEq

/-- The hard-coded package list. -/
def getPackages : List String :=
  [ "github.com/charmbracelet/bubbles",
    "github.com/charmbracelet/bubbles/textinput",
    "github.com/charmbracelet/bubbles/progress",
    "github.com/charmbracelet/bubbles/list",
    "github.com/charmbracelet/bubbles/textarea",
    "github.com/charmbracelet/lipgloss",
    "github.com/charmbracelet/bubbletea" ]

/-- Go `max` on `int`, as defined in the program. -/
def max (a b : Int) : Int :=
  if a > b then a else b

/-- Slice indexing `xs[i]` with a Go `int` index; `none` is the run-time panic. -/
def index? (xs : List String) (i : Int) : Option String :=
  if i < 0 then none else xs[i.toNat]?

/-- The initial session record. -/
def newModel : model :=
  let ti : TextInput :=
    { value := "", Placeholder := "github.com/username/project_name",
      CharLimit := 156, Width := 20, focus := true }
  let p : Progress :=
    { targetPercent := 0, tag := 0, width := 40, showPercentage := false,
      defaultGradient := true }
  let s : Spinner := { frame := 0, foreground := "63" }
  { state := 0, textInput := ti, packages := getPackages, index := 0,
    width := 0, height := 0, spinner := s, progress := p, done := false,
    project := "", err := none }

/-- The command scheduling one fetch of `pkg`. -/
def downloadAndInstall (pkg : String) : Atom :=
  Atom.downloadAndInstall pkg

/-- Writes the manifest: the effects performed, in order. -/
def createGoModFile (env : Env) (project : String) : List Effect :=
  let modContent := Sprintf "module %s\n\ngo 1.20" [FmtArg.str project]
  let err := env.writeFileErr "go.mod" modContent
  Effect.writeFile "go.mod" modContent 0o644 ::
    (match err with
     | some e => [Effect.print (Println ["Error creating go.mod:", e])]
     | none => [])

/-- The line `tea.Printf("%s %s", checkMark, pkg)`. -/
def successMark (env : Env) (pkg : String) : Atom :=
  Atom.Printf (Sprintf "%s %s" [FmtArg.str env.checkMark, FmtArg.str pkg])

/-- The report printed when a completion message carries an error. -/
def failureReport (msg : installedPkgMsg) : List Effect :=
  match msg.Err with
  | some e =>
    [Effect.print (Sprintf "Failed to install %s: %v\n" [FmtArg.str msg.Package, FmtArg.str e])]
  | none => []

/-- The tail of `Update` after the type switch: the text input sees the message. -/
def handleTextInput (env : Env) (m : model) (msg : Msg) : Option (model × List Effect × Cmd) :=
  some ({ m with textInput := env.textInputUpdate m.textInput msg }, [], Cmd.one Atom.nil)

/-- The message dispatcher. -/
def Update (env : Env) (m : model) (msg : Msg) : Option (model × List Effect × Cmd) :=
  match msg with
  | Msg.key k =>
    if m.state = 0 then
      if k = "enter" then
        let m1 : model := { m with project := m.textInput.value }
        let eff := createGoModFile env m1.project
        let m2 : model := { m1 with state := 1 }
        match index? m2.packages m2.index with
        | none => none
        | some pkg =>
          some (m2, eff, Cmd.Batch [downloadAndInstall pkg, Atom.spinnerTick])
      else if k = "ctrl+c" ∨ k = "esc" then
        some (m, [], Cmd.one Atom.Quit)
      else handleTextInput env m msg
    else if m.state = 1 then
      if k = "ctrl+c" ∨ k = "esc" ∨ k = "q" then
        some (m, [], Cmd.one Atom.Quit)
      else handleTextInput env m msg
    else handleTextInput env m msg
  | Msg.windowSize w h =>
    handleTextInput env { m with width := w, height := h } msg
  | Msg.installed msg =>
    let eff := failureReport msg
    match index? m.packages m.index with
    | none => none
    | some pkg =>
      if m.index ≥ (m.packages.length : Int) - 1 then
        some ({ m with done := true }, eff,
          Cmd.Sequence [successMark env pkg, Atom.Quit])
      else
        let m1 : model := { m with index := m.index + 1 }
        let r := m1.progress.SetPercent env (float64Div m1.index (m1.packages.length : Int))
        let m2 : model := { m1 with progress := r.1 }
        match index? m2.packages m2.index with
        | none => none
        | some next =>
          some (m2, eff,
            Cmd.Batch [Atom.ofWidget r.2, successMark env pkg, downloadAndInstall next])
  | Msg.spinnerTick _ =>
    let r := env.spinnerUpdate m.spinner msg
    some ({ m with spinner := r.1 }, [], Cmd.one (Atom.ofWidget r.2))
  | Msg.progressFrame _ =>
    let r := env.progressUpdate m.progress msg
    match r.1 with
    | some p => some ({ m with progress := p }, [], Cmd.one (Atom.ofWidget r.2))
    | none => some (m, [], Cmd.one (Atom.ofWidget r.2))
  | Msg.other _ => handleTextInput env m msg

/-- The renderer; `none` is the run-time panic of `m.packages[m.index]`. -/
def View (env : Env) (m : model) : Option String :=
  if m.state = 0 then
    some (Sprintf "Enter the project name\n\n%s\n\n%s"
      [FmtArg.str (env.textInputView m.textInput), FmtArg.str "(esc to quit)"] ++ "\n")
  else if m.state = 1 then
    if m.done then
      some (env.renderDone
        (Sprintf "Done! Installed %d packages.\n" [FmtArg.int (m.packages.length : Int)]))
    else
      let pkgCount := Sprintf " %d/%d" [FmtArg.int m.index, FmtArg.int (m.packages.length : Int)]
      let spin := env.spinnerView m.spinner ++ " "
      let prog := env.progressView m.progress
      let cellsAvail := max 0 (m.width - env.lipglossWidth (spin ++ prog ++ pkgCount))
      match index? m.packages m.index with
      | none => none
      | some name =>
        let pkgName := env.renderPkgName name
        let info := env.renderMaxWidth cellsAvail ("Installing " ++ pkgName)
        let cellsRemaining :=
          max 0 (m.width - env.lipglossWidth (spin ++ info ++ prog ++ pkgCount))
        let gap := String.mk (List.replicate cellsRemaining.toNat ' ')
        some (spin ++ info ++ gap ++ prog ++ pkgCount)
  else some ""

/-! ## The event loop -/

/-- One entry of the log of a run: an effect performed by `Update`, or the
command `Update` returned. -/
inductive Event where
  | effect (e : Effect)
  | cmd (c : Cmd)
  deriving DecidableEq, Repr

/-- A running session: the record, the fetches scheduled whose completion
message has not been delivered yet, and the log so far. -/
structure Session where
  m : model
  inFlight : List String
  log : List Event
  deriving DecidableEq

/-- The session the program starts in. -/
def Session.start : Session :=
  { m := newModel, inFlight := [], log := [] }

/-- The commands of a log, in order. -/
def cmdsOf (log : List Event) : List Cmd :=
  log.filterMap fun ev => match ev with
    | Event.cmd c => some c
    | Event.effect _ => none

/-- The packages for which a fetch was scheduled, in order. -/
def fetchesOf (log : List Event) : List String :=
  (cmdsOf log).flatMap Cmd.fetches

/-- The files written, as path and content, in order. -/
def writesOf (log : List Event) : List (String × String) :=
  log.filterMap fun ev => match ev with
    | Event.effect e => e.write?
    | Event.cmd _ => none

/-- The runtime hands `msg` to `Update`, logs what happened and puts the
fetches of the returned command in flight. -/
def deliver (env : Env) (s : Session) (msg : Msg) : Option Session :=
  match Update env s.m msg with
  | none => none
  | some (m1, eff, cmd) =>
    some { m := m1, inFlight := s.inFlight ++ cmd.fetches,
           log := s.log ++ eff.map Event.effect ++ [Event.cmd cmd] }

/-- One step of the event loop.  A completion message is only produced by a
fetch in flight, which it retires; every other message can arrive at any time.
`none`: the message cannot arrive here, or `Update` panics. -/
def runStep (env : Env) (s : Session) (msg : Msg) : Option Session :=
  match msg with
  | Msg.installed i =>
    if i.Package ∈ s.inFlight then
      deliver env { s with inFlight := s.inFlight.erase i.Package } msg
    else none
  | _ => deliver env s msg

/-- The event loop over a sequence of messages. -/
def run (env : Env) (s : Session) : List Msg → Option Session
  | [] => some s
  | msg :: rest =>
    match runStep env s msg with
    | none => none
    | some s1 => run env s1 rest

/-- The sessions a run of the program can be in.  The loop is not stopped at
`tea.Quit`, so the sessions after a quit command are included: what holds of
every reachable session holds of those the program really passes through. -/
def Reachable (env : Env) (s : Session) : Prop :=
  ∃ msgs, run env Session.start msgs = some s

/-- The completion messages of the packages `pkgs` with the results `errs`. -/
def completions (pkgs : List String) (errs : List (Option String)) : List Msg :=
  List.zipWith (fun p e => Msg.installed { Package := p, Err := e }) pkgs errs

/-- What holds of every session of a run.  The index is a valid position;
in the Prompting stage nothing has been fetched or written and the index is 0;
in the Installing stage either the fetch of the package at the index is the one
in flight, or the session is done, nothing is in flight and the index is the
last position. -/
structure Session.Inv (s : Session) : Prop where
  lo : 0 ≤ s.m.index
  hi : s.m.index < (s.m.packages.length : Int)
  stage : s.m.state = 0 ∨ s.m.state = 1
  prompting : s.m.state = 0 →
    s.inFlight = [] ∧ s.m.index = 0 ∧ s.m.done = false ∧
      fetchesOf s.log = [] ∧ writesOf s.log = []
  installing : s.m.state = 1 →
    (s.m.done = false ∧ ∃ p, index? s.m.packages s.m.index = some p ∧ s.inFlight = [p]) ∨
    (s.m.done = true ∧ s.inFlight = [] ∧ s.m.index = (s.m.packages.length : Int) - 1)

/-- The text of `s` up to its first newline. -/
def firstLine (s : String) : String :=
  String.mk (s.data.takeWhile fun c => c != '\n')

/-- A plain environment: typed characters other than a newline are appended
to the text input, the other widgets do nothing, nothing is styled, and the
write succeeds. -/
def plainEnv : Env :=
  { textInputUpdate := fun t msg =>
      match msg with
      | Msg.key k =>
        if k.length = 1 ∧ '\n' ∉ k.data then { t with value := t.value ++ k } else t
      | _ => t
    spinnerUpdate := fun sp _ => ({ sp with frame := sp.frame + 1 }, some 0)
    progressUpdate := fun p _ => (some p, none)
    progressNextFrame := fun _ => some 1
    writeFileErr := fun _ _ => none
    textInputView := fun t => "> " ++ t.value
    spinnerView := fun _ => "*"
    progressView := fun _ => "[....]"
    lipglossWidth := fun s => (s.length : Int)
    renderPkgName := fun s => s
    renderMaxWidth := fun _ s => s
    renderDone := fun s => s
    checkMark := "v"
    textInputSingleLine := by
      intro t msg h
      cases msg with
      | key k =>
        dsimp only
        split_ifs with hk
        · intro hmem
          rcases List.mem_append.mp (show '\n' ∈ t.value.data ++ k.data from hmem) with h1 | h1
          · exact h h1
          · exact hk.2 h1
        · exact h
      | _ => exact h }

/-- The key presses that type `example.com/foo`. -/
def typedKeys : List Msg :=
  ["e", "x", "a", "m", "p", "l", "e", ".", "c", "o", "m", "/", "f", "o", "o"].map Msg.key

/-- The session after `typedKeys` in the plain environment. -/
def typedSession : Session :=
  { m := { newModel with textInput := { newModel.textInput with value := "example.com/foo" } },
    inFlight := [],
    log := List.replicate 15 (Event.cmd (Cmd.one Atom.nil)) }

/-- The session after `enter` on the empty input in the plain environment. -/
def confirmedSession : Session :=
  (run plainEnv Session.start [Msg.key "enter"]).getD Session.start

/-- The session after `enter` and the completion messages of the first two packages in
the plain environment: the index is 2 and the third package is being fetched. -/
def secondSession : Session :=
  (run plainEnv Session.start
    (Msg.key "enter" :: completions (getPackages.take 2) [none, none])).getD Session.start

/-- The session at the end of a whole installation in the plain environment. -/
def doneSession : Session :=
  (run plainEnv Session.start
    (Msg.key "enter" :: completions getPackages (List.replicate 7 none))).getD Session.start

/-! ## Formatting lemmas -/

theorem Sprintf_module (project : String) :
    Sprintf "module %s\n\ngo 1.20" [FmtArg.str project] = "module " ++ project ++ "\n\ngo 1.20" :=
  rfl

theorem Sprintf_done (n : Int) :
    Sprintf "Done! Installed %d packages.\n" [FmtArg.int n]
      = "Done! Installed " ++ toString n ++ " packages.\n" :=
  rfl

/-! ## Slice indexing -/

theorem index?_eq {xs : List String} {i : Int} (h0 : 0 ≤ i) :
    index? xs i = xs[i.toNat]? := by
  unfold index?
  rw [if_neg (not_lt.mpr h0)]

theorem index?_isSome (xs : List String) (i : Int) (h0 : 0 ≤ i) (h1 : i < xs.length) :
    ∃ p, index? xs i = some p := by
  rw [index?_eq h0]
  have h : i.toNat < xs.length := by omega
  exact ⟨xs[i.toNat], List.getElem?_eq_getElem h⟩

theorem index?_some_bounds {xs : List String} {i : Int} {p : String}
    (h : index? xs i = some p) : 0 ≤ i ∧ i < xs.length := by
  unfold index? at h
  split at h
  · cases h
  · rename_i hi
    have := (List.getElem?_eq_some_iff.mp h).1
    omega

/-! ## `Update`, case by case -/

theorem Update_enter (env : Env) (m : model) (pkg : String) (hs : m.state = 0)
    (hp : index? m.packages m.index = some pkg) :
    Update env m (Msg.key "enter")
      = some ({ m with project := m.textInput.value, state := 1 },
              createGoModFile env m.textInput.value,
              Cmd.Batch [downloadAndInstall pkg, Atom.spinnerTick]) := by
  simp [Update, hs, hp]

theorem Update_installed_final (env : Env) (m : model) (i : installedPkgMsg) (pkg : String)
    (hp : index? m.packages m.index = some pkg)
    (hlast : m.index ≥ (m.packages.length : Int) - 1) :
    Update env m (Msg.installed i)
      = some ({ m with done := true }, failureReport i,
              Cmd.Sequence [successMark env pkg, Atom.Quit]) := by
  simp [Update, hp, hlast]

theorem Update_installed_next (env : Env) (m : model) (i : installedPkgMsg) (pkg next : String)
    (hp : index? m.packages m.index = some pkg)
    (hn : index? m.packages (m.index + 1) = some next)
    (hlt : m.index < (m.packages.length : Int) - 1) :
    Update env m (Msg.installed i)
      = some ({ m with
                index := m.index + 1,
                progress := (m.progress.SetPercent env
                  (float64Div (m.index + 1) (m.packages.length : Int))).1 },
              failureReport i,
              Cmd.Batch
                [Atom.ofWidget (m.progress.SetPercent env
                    (float64Div (m.index + 1) (m.packages.length : Int))).2,
                 successMark env pkg, downloadAndInstall next]) := by
  have hnl : ¬ (m.index ≥ (m.packages.length : Int) - 1) := not_le.mpr hlt
  simp only [Update, hp, hn]
  rw [if_neg hnl]

theorem fetch?_ofWidget (c : WidgetCmd) : (Atom.ofWidget c).fetch? = none := by
  cases c <;> rfl

theorem fetches_next (env : Env) (c : WidgetCmd) (pkg next : String) :
    (Cmd.Batch [Atom.ofWidget c, successMark env pkg, downloadAndInstall next]).fetches
      = [next] := by
  cases c <;> rfl

theorem fetches_final (env : Env) (pkg : String) :
    (Cmd.Sequence [successMark env pkg, Atom.Quit]).fetches = [] :=
  rfl

theorem fetches_enter (pkg : String) :
    (Cmd.Batch [downloadAndInstall pkg, Atom.spinnerTick]).fetches = [pkg] :=
  rfl

/-- Every message other than a completion message and other than `enter` in
the Prompting stage is handled without panic, performs no effect, schedules no
fetch, and leaves stage, index, completion flag, package list and project alone. -/
theorem Update_passive (env : Env) (m : model) (msg : Msg)
    (hni : ∀ i, msg ≠ Msg.installed i)
    (hne : ¬ (m.state = 0 ∧ msg = Msg.key "enter")) :
    ∃ m1 cmd, Update env m msg = some (m1, [], cmd) ∧ m1.state = m.state ∧
      m1.index = m.index ∧ m1.done = m.done ∧ m1.packages = m.packages ∧
      m1.project = m.project ∧ cmd.fetches = [] := by
  cases msg with
  | key k =>
    by_cases h0 : m.state = 0
    · have hk : k ≠ "enter" := fun h => hne ⟨h0, by rw [h]⟩
      simp only [Update, handleTextInput, if_pos h0, if_neg hk]
      split_ifs <;> exact ⟨_, _, rfl, rfl, rfl, rfl, rfl, rfl, rfl⟩
    · simp only [Update, handleTextInput, if_neg h0]
      split_ifs <;> exact ⟨_, _, rfl, rfl, rfl, rfl, rfl, rfl, rfl⟩
  | windowSize w h =>
    exact ⟨_, _, rfl, rfl, rfl, rfl, rfl, rfl, rfl⟩
  | installed i => exact absurd rfl (hni i)
  | spinnerTick n =>
    refine ⟨_, _, rfl, rfl, rfl, rfl, rfl, rfl, ?_⟩
    cases (env.spinnerUpdate m.spinner (Msg.spinnerTick n)).2 <;> rfl
  | progressFrame n =>
    simp only [Update]
    split
    · refine ⟨_, _, rfl, rfl, rfl, rfl, rfl, rfl, ?_⟩
      cases (env.progressUpdate m.progress (Msg.progressFrame n)).2 <;> rfl
    · refine ⟨_, _, rfl, rfl, rfl, rfl, rfl, rfl, ?_⟩
      cases (env.progressUpdate m.progress (Msg.progressFrame n)).2 <;> rfl
  | other n =>
    exact ⟨_, _, rfl, rfl, rfl, rfl, rfl, rfl, rfl⟩

/-! ## The log -/

theorem cmdsOf_append (l1 l2 : List Event) : cmdsOf (l1 ++ l2) = cmdsOf l1 ++ cmdsOf l2 := by
  simp [cmdsOf, List.filterMap_append]

theorem cmdsOf_effects (eff : List Effect) : cmdsOf (eff.map Event.effect) = [] := by
  induction eff with
  | nil => rfl
  | cons e es ih => simp [cmdsOf]

theorem cmdsOf_step (log : List Event) (eff : List Effect) (c : Cmd) :
    cmdsOf (log ++ eff.map Event.effect ++ [Event.cmd c]) = cmdsOf log ++ [c] := by
  rw [cmdsOf_append, cmdsOf_append, cmdsOf_effects, List.append_nil]
  rfl

theorem fetchesOf_step (log : List Event) (eff : List Effect) (c : Cmd) :
    fetchesOf (log ++ eff.map Event.effect ++ [Event.cmd c]) = fetchesOf log ++ c.fetches := by
  unfold fetchesOf
  rw [cmdsOf_step]
  simp

theorem writesOf_append (l1 l2 : List Event) : writesOf (l1 ++ l2) = writesOf l1 ++ writesOf l2 := by
  simp [writesOf, List.filterMap_append]

theorem writesOf_effects (eff : List Effect) :
    writesOf (eff.map Event.effect) = eff.filterMap Effect.write? := by
  induction eff with
  | nil => rfl
  | cons e es ih =>
    have h : writesOf (Event.effect e :: es.map Event.effect)
        = (match e.write? with | some w => [w] | none => []) ++ writesOf (es.map Event.effect) := by
      unfold writesOf
      cases hw : e.write? <;> simp [List.filterMap_cons, hw]
    rw [List.map_cons, h, ih]
    cases hw : e.write? <;> simp [List.filterMap_cons, hw]

theorem writesOf_step (log : List Event) (eff : List Effect) (c : Cmd) :
    writesOf (log ++ eff.map Event.effect ++ [Event.cmd c])
      = writesOf log ++ eff.filterMap Effect.write? := by
  rw [writesOf_append, writesOf_append, writesOf_effects]
  have h : writesOf [Event.cmd c] = [] := rfl
  rw [h, List.append_nil]

theorem failureReport_writes (i : installedPkgMsg) :
    (failureReport i).filterMap Effect.write? = [] := by
  unfold failureReport
  cases i.Err <;> rfl

/-! ## The invariant of a run -/

theorem deliver_passive (env : Env) (s s1 : Session) (msg : Msg)
    (hni : ∀ i, msg ≠ Msg.installed i)
    (hne : ¬ (s.m.state = 0 ∧ msg = Msg.key "enter"))
    (h : deliver env s msg = some s1) :
    s1.m.state = s.m.state ∧ s1.m.index = s.m.index ∧ s1.m.done = s.m.done ∧
      s1.m.packages = s.m.packages ∧ s1.m.project = s.m.project ∧
      s1.inFlight = s.inFlight ∧ fetchesOf s1.log = fetchesOf s.log ∧
      writesOf s1.log = writesOf s.log := by
  obtain ⟨m1, cmd, hu, h1, h2, h3, h4, h5, h6⟩ := Update_passive env s.m msg hni hne
  simp only [deliver, hu, Option.some.injEq] at h
  subst h
  refine ⟨h1, h2, h3, h4, h5, ?_, ?_, ?_⟩
  · simp [h6]
  · simp only [fetchesOf_step, h6, List.append_nil]
  · simp only [writesOf_step, List.filterMap_nil, List.append_nil]

theorem runStep_not_installed (env : Env) (s : Session) (msg : Msg)
    (hni : ∀ i, msg ≠ Msg.installed i) : runStep env s msg = deliver env s msg := by
  cases msg with
  | installed i => exact absurd rfl (hni i)
  | _ => rfl

theorem Session.Inv.start : Session.start.Inv where
  lo := by decide
  hi := by decide
  stage := Or.inl rfl
  prompting := fun _ => ⟨rfl, rfl, rfl, rfl, rfl⟩
  installing := fun h => absurd h (by decide)

theorem Session.Inv.step (env : Env) (s s1 : Session) (msg : Msg) (hinv : s.Inv)
    (h : runStep env s msg = some s1) : s1.Inv := by
  by_cases hi : ∃ i, msg = Msg.installed i
  · obtain ⟨i, rfl⟩ := hi
    simp only [runStep] at h
    split_ifs at h with hmem
    have hst : s.m.state = 1 := by
      rcases hinv.stage with h0 | h1
      · rw [(hinv.prompting h0).1] at hmem
        cases hmem
      · exact h1
    rcases hinv.installing hst with ⟨hd, p, hp, hfl⟩ | ⟨_, hfl, _⟩
    · have hpk : i.Package = p := by
        rw [hfl] at hmem
        simpa using hmem
      have her : s.inFlight.erase i.Package = [] := by
        rw [hfl, hpk]
        simp
      by_cases hlast : s.m.index ≥ (s.m.packages.length : Int) - 1
      · have hu := Update_installed_final env s.m i p hp hlast
        simp only [deliver, hu, her, Option.some.injEq] at h
        subst h
        exact
          { lo := hinv.lo
            hi := hinv.hi
            stage := hinv.stage
            prompting := fun h0 => absurd (h0.symm.trans hst) (by decide)
            installing := fun _ => Or.inr ⟨rfl, rfl, by
              have := hinv.hi
              show s.m.index = (s.m.packages.length : Int) - 1
              omega⟩ }
      · have hlt : s.m.index < (s.m.packages.length : Int) - 1 := not_le.mp hlast
        obtain ⟨next, hn⟩ := index?_isSome s.m.packages (s.m.index + 1)
          (by have := hinv.lo; omega) (by omega)
        have hu := Update_installed_next env s.m i p next hp hn hlt
        simp only [deliver, hu, her, Option.some.injEq] at h
        subst h
        exact
          { lo := by have := hinv.lo; show 0 ≤ s.m.index + 1; omega
            hi := by show s.m.index + 1 < (s.m.packages.length : Int); omega
            stage := hinv.stage
            prompting := fun h0 => absurd (h0.symm.trans hst) (by decide)
            installing := fun _ => Or.inl ⟨hd, next, hn, by
              show [] ++ Cmd.fetches _ = [next]
              rw [fetches_next]
              rfl⟩ }
    · rw [hfl] at hmem
      cases hmem
  · have hni : ∀ i, msg ≠ Msg.installed i := fun i e => hi ⟨i, e⟩
    rw [runStep_not_installed env s msg hni] at h
    by_cases hent : s.m.state = 0 ∧ msg = Msg.key "enter"
    · obtain ⟨h0, rfl⟩ := hent
      obtain ⟨hfl, hix, hd, hf, hw⟩ := hinv.prompting h0
      obtain ⟨p, hp⟩ := index?_isSome _ _ hinv.lo hinv.hi
      have hu := Update_enter env s.m p h0 hp
      simp only [deliver, hu, Option.some.injEq] at h
      subst h
      exact
        { lo := hinv.lo
          hi := hinv.hi
          stage := Or.inr rfl
          prompting := fun h1 => absurd (show (1 : Int) = 0 from h1) (by decide)
          installing := fun _ => Or.inl ⟨hd, p, hp, by
            show s.inFlight ++ Cmd.fetches _ = [p]
            rw [hfl]
            rfl⟩ }
    · obtain ⟨e1, e2, e3, e4, _, e6, e7, e8⟩ := deliver_passive env s s1 msg hni hent h
      exact
        { lo := by rw [e2]; exact hinv.lo
          hi := by rw [e2, e4]; exact hinv.hi
          stage := by rw [e1]; exact hinv.stage
          prompting := fun h0 => by
            rw [e1] at h0
            rw [e6, e2, e3, e7, e8]
            exact hinv.prompting h0
          installing := fun h1 => by
            rw [e1] at h1
            rw [e6, e2, e3, e4]
            exact hinv.installing h1 }

theorem Session.Inv.run (env : Env) (msgs : List Msg) :
    ∀ (s s1 : Session), s.Inv → run env s msgs = some s1 → s1.Inv := by
  induction msgs with
  | nil =>
    intro s s1 hinv h
    simp only [CharmGet.run, Option.some.injEq] at h
    exact h ▸ hinv
  | cons msg rest ih =>
    intro s s1 hinv h
    simp only [CharmGet.run] at h
    cases hs : runStep env s msg with
    | none => simp [hs] at h
    | some s2 =>
      rw [hs] at h
      exact ih s2 s1 (Session.Inv.step env s s2 msg hinv hs) h

theorem Reachable.inv {env : Env} {s : Session} (h : Reachable env s) : s.Inv := by
  obtain ⟨msgs, hr⟩ := h
  exact Session.Inv.run env msgs Session.start s Session.Inv.start hr

theorem reachable_getD (env : Env) (msgs : List Msg)
    (h : (run env Session.start msgs).isSome = true) :
    Reachable env ((run env Session.start msgs).getD Session.start) := by
  cases hr : run env Session.start msgs with
  | none =>
    rw [hr] at h
    cases h
  | some s1 => exact ⟨msgs, hr⟩

theorem packages_step (env : Env) (m m1 : model) (msg : Msg) (eff : List Effect) (cmd : Cmd)
    (h : Update env m msg = some (m1, eff, cmd)) : m1.packages = m.packages := by
  cases msg with
  | key k =>
    simp only [Update, handleTextInput] at h
    split_ifs at h
    · split at h
      · cases h
      · simp only [Option.some.injEq, Prod.mk.injEq] at h
        rw [← h.1]
    all_goals
      simp only [Option.some.injEq, Prod.mk.injEq] at h
      rw [← h.1]
  | windowSize w hh =>
    simp only [Update, handleTextInput, Option.some.injEq, Prod.mk.injEq] at h
    rw [← h.1]
  | installed i =>
    simp only [Update] at h
    split at h
    · cases h
    · split_ifs at h
      · simp only [Option.some.injEq, Prod.mk.injEq] at h
        rw [← h.1]
      · split at h
        · cases h
        · simp only [Option.some.injEq, Prod.mk.injEq] at h
          rw [← h.1]
  | spinnerTick n =>
    simp only [Update, Option.some.injEq, Prod.mk.injEq] at h
    rw [← h.1]
  | progressFrame n =>
    simp only [Update] at h
    split at h <;>
    · simp only [Option.some.injEq, Prod.mk.injEq] at h
      rw [← h.1]
  | other n =>
    simp only [Update, handleTextInput, Option.some.injEq, Prod.mk.injEq] at h
    rw [← h.1]

/-- A property of the record that every `Update` preserves holds along a step of the
event loop. -/
theorem runStep_model (env : Env) (P : model → Prop)
    (hP : ∀ (m m1 : model) (msg : Msg) (eff : List Effect) (cmd : Cmd),
      Update env m msg = some (m1, eff, cmd) → P m → P m1)
    (s s1 : Session) (msg : Msg) (h : runStep env s msg = some s1) (hs : P s.m) :
    P s1.m := by
  have key : ∀ t : Session, t.m = s.m → deliver env t msg = some s1 → P s1.m := by
    intro t ht hd
    unfold deliver at hd
    split at hd
    · cases hd
    · rename_i m1 eff cmd hu
      simp only [Option.some.injEq] at hd
      subst hd
      rw [ht] at hu
      exact hP s.m m1 msg eff cmd hu hs
  cases msg with
  | installed i =>
    simp only [runStep] at h
    split_ifs at h
    exact key { s with inFlight := s.inFlight.erase i.Package } rfl h
  | key k => exact key s rfl h
  | windowSize w hh => exact key s rfl h
  | spinnerTick n => exact key s rfl h
  | progressFrame n => exact key s rfl h
  | other n => exact key s rfl h

theorem run_model (env : Env) (P : model → Prop)
    (hP : ∀ (m m1 : model) (msg : Msg) (eff : List Effect) (cmd : Cmd),
      Update env m msg = some (m1, eff, cmd) → P m → P m1)
    (msgs : List Msg) :
    ∀ (s s1 : Session), run env s msgs = some s1 → P s.m → P s1.m := by
  induction msgs with
  | nil =>
    intro s s1 h hs
    simp only [run, Option.some.injEq] at h
    exact h ▸ hs
  | cons msg rest ih =>
    intro s s1 h hs
    simp only [run] at h
    cases hstep : runStep env s msg with
    | none => simp [hstep] at h
    | some s2 =>
      rw [hstep] at h
      exact ih s2 s1 h (runStep_model env P hP s s2 msg hstep hs)

/-- `Update` never brings a newline into the value of the text input: it either leaves
the widget alone or hands the message to the widget's own update. -/
theorem singleLine_step (env : Env) (m m1 : model) (msg : Msg) (eff : List Effect) (cmd : Cmd)
    (h : Update env m msg = some (m1, eff, cmd)) (hsl : '\n' ∉ m.textInput.value.data) :
    '\n' ∉ m1.textInput.value.data := by
  have hup := env.textInputSingleLine m.textInput msg hsl
  cases msg with
  | key k =>
    simp only [Update, handleTextInput] at h
    split_ifs at h
    · split at h
      · cases h
      · simp only [Option.some.injEq, Prod.mk.injEq] at h
        rw [← h.1]
        exact hsl
    all_goals
      simp only [Option.some.injEq, Prod.mk.injEq] at h
      rw [← h.1]
      first
        | exact hsl
        | exact hup
  | windowSize w hh =>
    simp only [Update, handleTextInput, Option.some.injEq, Prod.mk.injEq] at h
    rw [← h.1]
    exact hup
  | installed i =>
    simp only [Update] at h
    split at h
    · cases h
    · split_ifs at h
      · simp only [Option.some.injEq, Prod.mk.injEq] at h
        rw [← h.1]
        exact hsl
      · split at h
        · cases h
        · simp only [Option.some.injEq, Prod.mk.injEq] at h
          rw [← h.1]
          exact hsl
  | spinnerTick n =>
    simp only [Update, Option.some.injEq, Prod.mk.injEq] at h
    rw [← h.1]
    exact hsl
  | progressFrame n =>
    simp only [Update] at h
    split at h <;>
    · simp only [Option.some.injEq, Prod.mk.injEq] at h
      rw [← h.1]
      exact hsl
  | other n =>
    simp only [Update, handleTextInput, Option.some.injEq, Prod.mk.injEq] at h
    rw [← h.1]
    exact hup

/-- In a run the value of the text input never contains a newline. -/
theorem Reachable.singleLine {env : Env} {s : Session} (h : Reachable env s) :
    '\n' ∉ s.m.textInput.value.data := by
  obtain ⟨msgs, hr⟩ := h
  exact run_model env (fun m => '\n' ∉ m.textInput.value.data)
    (fun m m1 msg eff cmd hu hm => singleLine_step env m m1 msg eff cmd hu hm)
    msgs Session.start s hr (by decide)

/-! ## The manifest -/

theorem createGoModFile_writes (env : Env) (project : String) :
    (createGoModFile env project).filterMap Effect.write?
      = [("go.mod", "module " ++ project ++ "\n\ngo 1.20")] := by
  unfold createGoModFile
  rw [Sprintf_module]
  dsimp only
  split <;> rfl

theorem createGoModFile_head (env : Env) (project : String) :
    (createGoModFile env project).head?
      = some (Effect.writeFile "go.mod" ("module " ++ project ++ "\n\ngo 1.20") 0o644) := by
  unfold createGoModFile
  rw [Sprintf_module]
  rfl

theorem firstLine_module (project : String) (hnl : '\n' ∉ project.data) :
    firstLine ("module " ++ project ++ "\n\ngo 1.20") = "module " ++ project := by
  have hd : ("module " ++ project ++ "\n\ngo 1.20").data
      = ("module " ++ project).data ++ ('\n' :: "\ngo 1.20".data) := rfl
  have hm : ∀ c ∈ "module ".data, (c != '\n') = true := by decide
  have hall : ∀ c ∈ ("module " ++ project).data, (c != '\n') = true := by
    intro c hc
    have hc2 : c ∈ "module ".data ++ project.data := hc
    rcases List.mem_append.mp hc2 with h | h
    · exact hm c h
    · have hne : c ≠ '\n' := fun e => hnl (e ▸ h)
      simpa using hne
  unfold firstLine
  rw [hd, List.takeWhile_append_of_pos hall]
  have ht : List.takeWhile (fun c => c != '\n') ('\n' :: "\ngo 1.20".data) = [] := rfl
  rw [ht, List.append_nil]

/-- C1: whenever a non-empty project identifier is confirmed in a run (`enter` in the
Prompting stage, the text input holding a non-empty value), that value becomes the
project, the one file written is `go.mod`, and the text written has as its first line,
the text up to the first newline, exactly `module ` followed by the identifier. -/
theorem C1_manifest_first_line (env : Env) (s : Session) (hr : Reachable env s)
    (hs : s.m.state = 0) (hne : s.m.textInput.value ≠ "") :
    ∃ m1 eff cmd content,
      Update env s.m (Msg.key "enter") = some (m1, eff, cmd) ∧
      m1.project = s.m.textInput.value ∧ m1.project ≠ "" ∧
      eff.filterMap Effect.write? = [("go.mod", content)] ∧
      firstLine content = "module " ++ m1.project := by
  obtain ⟨p, hp⟩ := index?_isSome _ _ hr.inv.lo hr.inv.hi
  exact ⟨_, _, _, _, Update_enter env s.m p hs hp, rfl, hne,
    createGoModFile_writes env _, firstLine_module _ hr.singleLine⟩

theorem C1_manifest_first_line_witness :
    ∃ m1 eff cmd content,
      Update plainEnv typedSession.m (Msg.key "enter") = some (m1, eff, cmd) ∧
      m1.project = typedSession.m.textInput.value ∧ m1.project ≠ "" ∧
      eff.filterMap Effect.write? = [("go.mod", content)] ∧
      firstLine content = "module " ++ m1.project :=
  C1_manifest_first_line plainEnv typedSession ⟨typedKeys, by decide⟩ rfl (by decide)

/-- C2: for every project identifier, the empty one included, `createGoModFile` first
writes, to the fixed relative path `go.mod`, exactly the text `module `, the identifier
as given, a newline, an empty line and `go 1.20`; it writes no other file. -/
theorem C2_manifest_content (env : Env) (project : String) :
    (createGoModFile env project).head?
      = some (Effect.writeFile "go.mod" ("module " ++ project ++ "\n\ngo 1.20") 0o644) ∧
    (createGoModFile env project).filterMap Effect.write?
      = [("go.mod", "module " ++ project ++ "\n\ngo 1.20")] ∧
    ("module " ++ project ++ "\n\ngo 1.20").data
      = "module ".data ++ project.data ++ ['\n', '\n', 'g', 'o', ' ', '1', '.', '2', '0'] :=
  ⟨createGoModFile_head env project, createGoModFile_writes env project, rfl⟩

/-! ## Cancellation and confirmation -/

/-- C7: in the Installing stage the keys `ctrl+c`, `esc` and `q`, and in the Prompting
stage the keys `ctrl+c` and `esc`, make `Update` return the unchanged record, no effect
(so no manifest write) and the quit command alone (so no fetch). -/
theorem C7_quit_keys (env : Env) (m : model) (k : String)
    (h : (m.state = 1 ∧ (k = "ctrl+c" ∨ k = "esc" ∨ k = "q")) ∨
         (m.state = 0 ∧ (k = "ctrl+c" ∨ k = "esc"))) :
    Update env m (Msg.key k) = some (m, [], Cmd.one Atom.Quit) ∧
    (Cmd.one Atom.Quit).fetches = [] ∧ (Cmd.one Atom.Quit).atoms = [Atom.Quit] := by
  refine ⟨?_, rfl, rfl⟩
  rcases h with ⟨hs, hk⟩ | ⟨hs, hk⟩
  · have h0 : m.state ≠ 0 := by omega
    simp only [Update, if_neg h0, if_pos hs, if_pos hk]
  · have hne : k ≠ "enter" := by
      rcases hk with rfl | rfl <;> decide
    simp only [Update, if_pos hs, if_neg hne, if_pos hk]

theorem C7_quit_keys_witness :
    Update plainEnv { newModel with state := 1, index := 3 } (Msg.key "q")
      = some ({ newModel with state := 1, index := 3 }, [], Cmd.one Atom.Quit) ∧
    (Cmd.one Atom.Quit).fetches = [] ∧ (Cmd.one Atom.Quit).atoms = [Atom.Quit] :=
  C7_quit_keys plainEnv { newModel with state := 1, index := 3 } "q"
    (Or.inl ⟨rfl, Or.inr (Or.inr rfl)⟩)

/-- C8: in the Prompting stage with the index at 0 and a non-empty package list, whatever
text the input holds, `enter` stores that text as the project, performs the manifest write
for it as its first effect, moves to the Installing stage with the index still 0, and
returns the batch of exactly one fetch, of the first package, and the spinner tick; in the
log of the run the write therefore precedes the scheduling of the fetch. -/
theorem C8_confirm (env : Env) (m : model) (hs : m.state = 0) (hi : m.index = 0)
    (hp : m.packages ≠ []) :
    ∃ first m1 eff cmd,
      m.packages.head? = some first ∧
      Update env m (Msg.key "enter") = some (m1, eff, cmd) ∧
      m1.project = m.textInput.value ∧ m1.state = 1 ∧ m1.index = 0 ∧
      m1.packages = m.packages ∧ m1.done = m.done ∧
      eff.head? = some
        (Effect.writeFile "go.mod" ("module " ++ m.textInput.value ++ "\n\ngo 1.20") 0o644) ∧
      eff.filterMap Effect.write?
        = [("go.mod", "module " ++ m.textInput.value ++ "\n\ngo 1.20")] ∧
      cmd = Cmd.Batch [downloadAndInstall first, Atom.spinnerTick] ∧
      cmd.fetches = [first] ∧
      ∀ s : Session, s.m = m →
        runStep env s (Msg.key "enter")
          = some { m := m1, inFlight := s.inFlight ++ [first],
                   log := s.log ++ eff.map Event.effect ++ [Event.cmd cmd] } := by
  obtain ⟨first, rest, hpk⟩ := List.exists_cons_of_ne_nil hp
  have hidx : index? m.packages m.index = some first := by
    rw [hi, hpk]
    simp [index?]
  have hu := Update_enter env m first hs hidx
  refine ⟨first, _, _, _, by rw [hpk]; rfl, hu, rfl, rfl, hi, rfl, rfl,
    createGoModFile_head env _, createGoModFile_writes env _, rfl, rfl, ?_⟩
  intro s hsm
  subst hsm
  simp only [runStep, deliver, hu, fetches_enter]

theorem C8_confirm_witness :
    ∃ first m1 eff cmd,
      newModel.packages.head? = some first ∧
      Update plainEnv newModel (Msg.key "enter") = some (m1, eff, cmd) ∧
      m1.project = newModel.textInput.value ∧ m1.state = 1 ∧ m1.index = 0 ∧
      m1.packages = newModel.packages ∧ m1.done = newModel.done ∧
      eff.head? = some
        (Effect.writeFile "go.mod"
          ("module " ++ newModel.textInput.value ++ "\n\ngo 1.20") 0o644) ∧
      eff.filterMap Effect.write?
        = [("go.mod", "module " ++ newModel.textInput.value ++ "\n\ngo 1.20")] ∧
      cmd = Cmd.Batch [downloadAndInstall first, Atom.spinnerTick] ∧
      cmd.fetches = [first] ∧
      ∀ s : Session, s.m = newModel →
        runStep plainEnv s (Msg.key "enter")
          = some { m := m1, inFlight := s.inFlight ++ [first],
                   log := s.log ++ eff.map Event.effect ++ [Event.cmd cmd] } :=
  C8_confirm plainEnv newModel rfl rfl (by decide)

/-! ## The install index -/

theorem index_of_not_installed (env : Env) (m m1 : model) (msg : Msg) (eff : List Effect)
    (cmd : Cmd) (hni : ∀ i, msg ≠ Msg.installed i)
    (h : Update env m msg = some (m1, eff, cmd)) : m1.index = m.index := by
  by_cases hent : m.state = 0 ∧ msg = Msg.key "enter"
  · obtain ⟨h0, rfl⟩ := hent
    cases hp : index? m.packages m.index with
    | none => simp [Update, h0, hp] at h
    | some p =>
      rw [Update_enter env m p h0 hp] at h
      simp only [Option.some.injEq, Prod.mk.injEq] at h
      rw [← h.1]
  · obtain ⟨m2, c2, hu, _, hix, _⟩ := Update_passive env m msg hni hent
    rw [hu] at h
    simp only [Option.some.injEq, Prod.mk.injEq] at h
    rw [← h.1]
    exact hix

theorem installed_step (env : Env) (m : model) (i : installedPkgMsg)
    (h0 : 0 ≤ m.index) (hi : m.index < (m.packages.length : Int)) :
    ∃ m1 eff cmd, Update env m (Msg.installed i) = some (m1, eff, cmd) ∧
      m1.packages = m.packages ∧
      (m.index < (m.packages.length : Int) - 1 →
        m1.index = m.index + 1 ∧ m1.done = m.done ∧
        m1.progress = (m.progress.SetPercent env
          (float64Div (m.index + 1) (m.packages.length : Int))).1 ∧
        ∃ next, index? m.packages (m.index + 1) = some next ∧ cmd.fetches = [next]) ∧
      (m.index = (m.packages.length : Int) - 1 →
        m1.index = m.index ∧ m1.done = true ∧ m1.progress = m.progress ∧
        cmd.fetches = [] ∧ cmd.quits = true) := by
  obtain ⟨p, hp⟩ := index?_isSome _ _ h0 hi
  by_cases hlast : m.index ≥ (m.packages.length : Int) - 1
  · refine ⟨_, _, _, Update_installed_final env m i p hp hlast, rfl, ?_, ?_⟩
    · intro hlt
      omega
    · intro _
      exact ⟨rfl, rfl, rfl, rfl, rfl⟩
  · have hlt : m.index < (m.packages.length : Int) - 1 := not_le.mp hlast
    obtain ⟨next, hn⟩ := index?_isSome m.packages (m.index + 1)
      (by omega) (by omega)
    refine ⟨_, _, _, Update_installed_next env m i p next hp hn hlt, rfl, ?_, ?_⟩
    · intro _
      exact ⟨rfl, rfl, rfl, next, hn, fetches_next env _ p next⟩
    · intro he
      omega

/-- C4: a completion message handled with the flag unset and the index valid either
advances the index by exactly 1 (index not the last) or sets the flag (index the last);
no other message changes the index; in every session of a run from the start the index
is at most `len(packages) - 1` while the flag is unset. -/
theorem C4_index_steps :
    (∀ (env : Env) (m : model) (i : installedPkgMsg),
      m.done = false → 0 ≤ m.index → m.index < (m.packages.length : Int) →
      ∃ m1 eff cmd, Update env m (Msg.installed i) = some (m1, eff, cmd) ∧
        ((m.index < (m.packages.length : Int) - 1 ∧ m1.index = m.index + 1 ∧ m1.done = false) ∨
         (m.index = (m.packages.length : Int) - 1 ∧ m1.index = m.index ∧ m1.done = true))) ∧
    (∀ (env : Env) (m m1 : model) (msg : Msg) (eff : List Effect) (cmd : Cmd),
      (∀ i, msg ≠ Msg.installed i) → Update env m msg = some (m1, eff, cmd) →
      m1.index = m.index) ∧
    (∀ (env : Env) (s : Session), Reachable env s → s.m.done = false →
      s.m.index ≤ (s.m.packages.length : Int) - 1) := by
  refine ⟨?_, ?_, ?_⟩
  · intro env m i hd h0 hi
    obtain ⟨m1, eff, cmd, hu, _, hnext, hfin⟩ := installed_step env m i h0 hi
    refine ⟨m1, eff, cmd, hu, ?_⟩
    by_cases hlt : m.index < (m.packages.length : Int) - 1
    · obtain ⟨a, b, _⟩ := hnext hlt
      exact Or.inl ⟨hlt, a, b.trans hd⟩
    · have he : m.index = (m.packages.length : Int) - 1 := by omega
      obtain ⟨a, b, _⟩ := hfin he
      exact Or.inr ⟨he, a, b⟩
  · intro env m m1 msg eff cmd hni h
    exact index_of_not_installed env m m1 msg eff cmd hni h
  · intro env s hr _
    have := hr.inv.hi
    omega

theorem C4_index_steps_witness :
    (∃ m1 eff cmd,
      Update plainEnv newModel (Msg.installed { Package := "p", Err := some "exit status 1" })
        = some (m1, eff, cmd) ∧
      ((newModel.index < (newModel.packages.length : Int) - 1 ∧
          m1.index = newModel.index + 1 ∧ m1.done = false) ∨
       (newModel.index = (newModel.packages.length : Int) - 1 ∧
          m1.index = newModel.index ∧ m1.done = true))) ∧
    Session.start.m.index ≤ (Session.start.m.packages.length : Int) - 1 :=
  ⟨C4_index_steps.1 plainEnv newModel { Package := "p", Err := some "exit status 1" }
      rfl (by decide) (by decide),
   C4_index_steps.2.2 plainEnv Session.start ⟨[], rfl⟩ rfl⟩

theorem runStep_packages (env : Env) (s s1 : Session) (msg : Msg)
    (h : runStep env s msg = some s1) : s1.m.packages = s.m.packages := by
  have key : ∀ t : Session, t.m = s.m → deliver env t msg = some s1 →
      s1.m.packages = s.m.packages := by
    intro t ht hd
    unfold deliver at hd
    split at hd
    · cases hd
    · rename_i m1 eff cmd hu
      simp only [Option.some.injEq] at hd
      subst hd
      rw [ht] at hu
      exact packages_step env s.m m1 msg eff cmd hu
  cases msg with
  | installed i =>
    simp only [runStep] at h
    split_ifs at h
    exact key { s with inFlight := s.inFlight.erase i.Package } rfl h
  | key k => exact key s rfl h
  | windowSize w hh => exact key s rfl h
  | spinnerTick n => exact key s rfl h
  | progressFrame n => exact key s rfl h
  | other n => exact key s rfl h

theorem run_packages (env : Env) (msgs : List Msg) :
    ∀ (s s1 : Session), run env s msgs = some s1 → s1.m.packages = s.m.packages := by
  induction msgs with
  | nil =>
    intro s s1 h
    simp only [run, Option.some.injEq] at h
    rw [h]
  | cons msg rest ih =>
    intro s s1 h
    simp only [run] at h
    cases hs : runStep env s msg with
    | none => simp [hs] at h
    | some s2 =>
      rw [hs] at h
      rw [ih s2 s1 h, runStep_packages env s s2 msg hs]

theorem Reachable.packages {env : Env} {s : Session} (h : Reachable env s) :
    s.m.packages = getPackages := by
  obtain ⟨msgs, hr⟩ := h
  exact run_packages env msgs Session.start s hr

/-- In a run, a session in the Prompting stage has its index at 0, the hard-coded package
list, and nothing in flight. -/
theorem Reachable.prompting {env : Env} {s : Session} (h : Reachable env s)
    (hs : s.m.state = 0) :
    s.m.index = 0 ∧ s.m.packages ≠ [] ∧ s.inFlight = [] ∧ s.m.done = false := by
  obtain ⟨hfl, hix, hd, _, _⟩ := h.inv.prompting hs
  refine ⟨hix, ?_, hfl, hd⟩
  rw [h.packages]
  decide

/-- C5 as amended: in every session of a run from the start the index is a valid position
of the package list, before and after completion, and once the completion flag is set the
index equals the last valid position, `len(packages) - 1`. -/
theorem C5_index_valid (env : Env) (s : Session) (h : Reachable env s) :
    (s.m.done = false → 0 ≤ s.m.index ∧ s.m.index < (s.m.packages.length : Int)) ∧
    (s.m.done = true → s.m.index = (s.m.packages.length : Int) - 1) ∧
    (0 ≤ s.m.index ∧ s.m.index < (s.m.packages.length : Int)) ∧
    s.m.packages = getPackages := by
  have hinv := h.inv
  refine ⟨fun _ => ⟨hinv.lo, hinv.hi⟩, ?_, ⟨hinv.lo, hinv.hi⟩, h.packages⟩
  intro hd
  rcases hinv.stage with h0 | h1
  · rw [(hinv.prompting h0).2.2.1] at hd
    cases hd
  · rcases hinv.installing h1 with ⟨hf, _⟩ | ⟨_, _, hix⟩
    · rw [hf] at hd
      cases hd
    · exact hix

theorem C5_index_valid_witness :
    (doneSession.m.done = true ∧ doneSession.m.index = 6) ∧
    (doneSession.m.done = false →
      0 ≤ doneSession.m.index ∧
      doneSession.m.index < (doneSession.m.packages.length : Int)) ∧
    (doneSession.m.done = true →
      doneSession.m.index = (doneSession.m.packages.length : Int) - 1) ∧
    (0 ≤ doneSession.m.index ∧
      doneSession.m.index < (doneSession.m.packages.length : Int)) ∧
    doneSession.m.packages = getPackages :=
  ⟨by decide,
   C5_index_valid plainEnv doneSession
     (reachable_getD plainEnv
       (Msg.key "enter" :: completions getPackages (List.replicate 7 none)) (by decide))⟩

/-- C5 as stated fails: the run `enter`, then the seven completion messages, ends with the
completion flag set and the index at 6, while the list has 7 entries. -/
theorem C5_counterexample :
    (run plainEnv Session.start
        (Msg.key "enter" :: completions getPackages (List.replicate 7 none))).map
      (fun s => (s.m.done, s.m.index, (s.m.packages.length : Int)))
      = some (true, 6, 7) ∧
    (6 : Int) ≠ 7 := by
  decide

/-! ## binary64 rounding -/

theorem roundHalfEven_le {n d M : Nat} (hd : 0 < d) (h : n ≤ d * M) : roundHalfEven n d ≤ M := by
  have hf : n / d ≤ M := by
    rw [Nat.div_le_iff_le_mul_add_pred hd]
    have : d * M ≤ d * M + (d - 1) := Nat.le_add_right _ _
    omega
  have hdm := Nat.div_add_mod n d
  unfold roundHalfEven
  rcases Nat.lt_or_ge (n / d) M with hlt | hge
  · split_ifs <;> omega
  · have he : n / d = M := le_antisymm hf hge
    have hr : n % d = 0 := by
      rw [he] at hdm
      omega
    rw [hr]
    simp [hd, he]

theorem roundHalfEven_err {n d : Nat} (hd : 0 < d) :
    |((roundHalfEven n d : Nat) : ℚ) - (n : ℚ) / (d : ℚ)| ≤ 1 / 2 := by
  have hdq : (0 : ℚ) < (d : ℚ) := by exact_mod_cast hd
  have hdm : (n : ℚ) = (d : ℚ) * ((n / d : Nat) : ℚ) + ((n % d : Nat) : ℚ) := by
    exact_mod_cast (Nat.div_add_mod n d).symm
  have hrlt : ((n % d : Nat) : ℚ) < (d : ℚ) := by exact_mod_cast Nat.mod_lt n hd
  have hr0 : (0 : ℚ) ≤ ((n % d : Nat) : ℚ) := by positivity
  have hq : (n : ℚ) / (d : ℚ) = ((n / d : Nat) : ℚ) + ((n % d : Nat) : ℚ) / (d : ℚ) := by
    rw [hdm]
    field_simp
    ring
  rw [hq, abs_le]
  unfold roundHalfEven
  split_ifs with h1 h2 h3
  · have h1q : 2 * ((n % d : Nat) : ℚ) < (d : ℚ) := by exact_mod_cast h1
    have : ((n % d : Nat) : ℚ) / (d : ℚ) < 1 / 2 := by
      rw [div_lt_iff₀ hdq]; linarith
    have : 0 ≤ ((n % d : Nat) : ℚ) / (d : ℚ) := div_nonneg hr0 hdq.le
    constructor <;> linarith
  · have h2q : (d : ℚ) < 2 * ((n % d : Nat) : ℚ) := by exact_mod_cast h2
    have : 1 / 2 < ((n % d : Nat) : ℚ) / (d : ℚ) := by
      rw [lt_div_iff₀ hdq]; linarith
    have : ((n % d : Nat) : ℚ) / (d : ℚ) < 1 := by
      rw [div_lt_iff₀ hdq]; linarith
    push_cast
    constructor <;> linarith
  · have he : 2 * (n % d) = d := by omega
    have heq : 2 * ((n % d : Nat) : ℚ) = (d : ℚ) := by exact_mod_cast he
    have : ((n % d : Nat) : ℚ) / (d : ℚ) = 1 / 2 := by
      rw [div_eq_iff hdq.ne']; linarith
    constructor <;> linarith
  · have he : 2 * (n % d) = d := by omega
    have heq : 2 * ((n % d : Nat) : ℚ) = (d : ℚ) := by exact_mod_cast he
    have : ((n % d : Nat) : ℚ) / (d : ℚ) = 1 / 2 := by
      rw [div_eq_iff hdq.ne']; linarith
    push_cast
    constructor <;> linarith

theorem binExponent_neg {a b : Nat} (ha : 0 < a) (hab : a < b) : binExponent a b ≤ -1 := by
  have hle : Nat.log2 a ≤ Nat.log2 b := by
    have h1 : a < 2 ^ (Nat.log2 b + 1) := lt_trans hab Nat.lt_log2_self
    have := (Nat.log2_lt (Nat.pos_iff_ne_zero.mp ha)).mpr h1
    omega
  unfold binExponent
  split_ifs with h1 h2 h3
  · have he : Nat.log2 a - Nat.log2 b = 0 := by omega
    rw [he] at h2
    simp at h2
    omega
  · have he : Nat.log2 a - Nat.log2 b = 0 := by omega
    rw [he]
    simp
  · omega
  · omega

theorem float64Quot_bounds {a b : Nat} (ha : 0 < a) (hab : a < b) (hb : b < 2 ^ 53) :
    0 ≤ float64Quot a b ∧ float64Quot a b < 1 ∧
      |float64Quot a b - (a : ℚ) / (b : ℚ)| ≤ 1 / 2 ^ 54 := by
  have he := binExponent_neg ha hab
  obtain ⟨k, hk⟩ : ∃ k : Nat, 52 - binExponent a b = (k : Int) :=
    ⟨(52 - binExponent a b).toNat, (Int.toNat_of_nonneg (by omega)).symm⟩
  have hk53 : 53 ≤ k := by omega
  have hb0 : 0 < b := lt_trans ha hab
  have hsig : binSignificand a b = roundHalfEven (a * 2 ^ k) b := by
    unfold binSignificand
    rw [if_pos (by omega), hk, Int.toNat_natCast]
  have hpow : (2 : ℚ) ^ (binExponent a b - 52) = 1 / (2 : ℚ) ^ k := by
    have : binExponent a b - 52 = -(k : Int) := by omega
    rw [this, zpow_neg, zpow_natCast, one_div]
  have h2k : (0 : ℚ) < (2 : ℚ) ^ k := by positivity
  have hval : float64Quot a b = ((roundHalfEven (a * 2 ^ k) b : Nat) : ℚ) / (2 : ℚ) ^ k := by
    unfold float64Quot
    rw [hsig, hpow, mul_one_div]
  have hle : roundHalfEven (a * 2 ^ k) b ≤ 2 ^ k - 1 := by
    apply roundHalfEven_le hb0
    have h1 : b ≤ 2 ^ k := le_trans hb.le (Nat.pow_le_pow_right (by decide) hk53)
    have h2 : a + 1 ≤ b := hab
    have h3 : 1 ≤ 2 ^ k := Nat.one_le_two_pow
    calc a * 2 ^ k ≤ (b - 1) * 2 ^ k := Nat.mul_le_mul_right _ (by omega)
      _ = b * 2 ^ k - 2 ^ k := by rw [Nat.sub_mul, Nat.one_mul]
      _ ≤ b * 2 ^ k - b := Nat.sub_le_sub_left h1 _
      _ = b * (2 ^ k - 1) := by rw [Nat.mul_sub, Nat.mul_one]
  have hlt : ((roundHalfEven (a * 2 ^ k) b : Nat) : ℚ) < (2 : ℚ) ^ k := by
    have h3 : 1 ≤ 2 ^ k := Nat.one_le_two_pow
    have : roundHalfEven (a * 2 ^ k) b < 2 ^ k := by omega
    exact_mod_cast this
  have herr := roundHalfEven_err (n := a * 2 ^ k) hb0
  refine ⟨?_, ?_, ?_⟩
  · rw [hval]
    positivity
  · rw [hval, div_lt_one h2k]
    exact hlt
  · have hbq : (0 : ℚ) < (b : ℚ) := by exact_mod_cast hb0
    have hscale : ((roundHalfEven (a * 2 ^ k) b : Nat) : ℚ) / (2 : ℚ) ^ k - (a : ℚ) / (b : ℚ)
        = (((roundHalfEven (a * 2 ^ k) b : Nat) : ℚ)
            - ((a * 2 ^ k : Nat) : ℚ) / (b : ℚ)) / (2 : ℚ) ^ k := by
      push_cast
      field_simp
      ring
    rw [hval, hscale, abs_div, abs_of_pos h2k]
    have h54 : (2 : ℚ) ^ 54 ≤ 2 * (2 : ℚ) ^ k := by
      have : (2 : ℚ) ^ 53 ≤ (2 : ℚ) ^ k := pow_le_pow_right₀ (by norm_num) hk53
      linarith [this, (by norm_num : (2 : ℚ) ^ 54 = 2 * 2 ^ 53)]
    rw [div_le_div_iff₀ h2k (by positivity)]
    calc _ ≤ 1 / 2 * (2 : ℚ) ^ 54 := mul_le_mul_of_nonneg_right herr (by positivity)
      _ ≤ 1 * (2 : ℚ) ^ k := by linarith

theorem float64OfNat_exact {n : Nat} (h : n < 2 ^ 53) : float64OfNat n = n := by
  unfold float64OfNat
  rw [if_pos h]

theorem float64Div_pos {x y : Int} (hx : 0 < x) (hy : 0 < y)
    (hx53 : x < 2 ^ 53) (hy53 : y < 2 ^ 53) :
    float64Div x y = float64Quot x.toNat y.toNat := by
  have hxn : x.natAbs = x.toNat := by omega
  have hyn : y.natAbs = y.toNat := by omega
  have hx2 : x.toNat < 2 ^ 53 := by
    have : ((x.toNat : Nat) : Int) < 2 ^ 53 := by rw [Int.toNat_of_nonneg hx.le]; exact hx53
    exact_mod_cast this
  have hy2 : y.toNat < 2 ^ 53 := by
    have : ((y.toNat : Nat) : Int) < 2 ^ 53 := by rw [Int.toNat_of_nonneg hy.le]; exact hy53
    exact_mod_cast this
  unfold float64Div
  rw [if_neg (by omega), if_pos (by constructor <;> intro h <;> omega), hxn, hyn,
    float64OfNat_exact hx2, float64OfNat_exact hy2]

theorem float64Div_three_seven :
    float64Div 3 7 = 7720456504063707 / 18014398509481984 := by
  have h3 : Nat.log2 3 = 1 := by simp [Nat.log2]
  have h7 : Nat.log2 7 = 2 := by simp [Nat.log2]
  have he : binExponent 3 7 = -2 := by simp [binExponent, h3, h7]
  have hs : binSignificand 3 7 = 7720456504063707 := by
    simp [binSignificand, he, roundHalfEven]
  rw [float64Div_pos (by norm_num) (by norm_num) (by norm_num) (by norm_num)]
  show float64Quot 3 7 = _
  unfold float64Quot
  rw [hs, he]
  norm_num

theorem float64Div_bounds {x y : Int} (hx : 0 < x) (hxy : x < y) (hy : y < 2 ^ 53) :
    0 ≤ float64Div x y ∧ float64Div x y < 1 ∧
      |float64Div x y - (x : ℚ) / (y : ℚ)| ≤ 1 / 2 ^ 54 := by
  have hy0 : 0 < y := lt_trans hx hxy
  rw [float64Div_pos hx hy0 (lt_trans hxy hy) hy]
  have ha : 0 < x.toNat := by omega
  have hab : x.toNat < y.toNat := by omega
  have hb : y.toNat < 2 ^ 53 := by
    have : ((y.toNat : Nat) : Int) < 2 ^ 53 := by rw [Int.toNat_of_nonneg hy0.le]; exact hy
    exact_mod_cast this
  have hxq : ((x.toNat : Nat) : ℚ) = (x : ℚ) := by
    have : ((x.toNat : Nat) : Int) = x := Int.toNat_of_nonneg hx.le
    exact_mod_cast congrArg (fun z : Int => (z : ℚ)) this
  have hyq : ((y.toNat : Nat) : ℚ) = (y : ℚ) := by
    have : ((y.toNat : Nat) : Int) = y := Int.toNat_of_nonneg hy0.le
    exact_mod_cast congrArg (fun z : Int => (z : ℚ)) this
  have h := float64Quot_bounds ha hab hb
  rw [hxq, hyq] at h
  exact h

/-! ## The progress fraction -/

theorem SetPercent_target (env : Env) (p : Progress) (v : ℚ) (h0 : 0 ≤ v) (h1 : v ≤ 1) :
    (p.SetPercent env v).1.targetPercent = v := by
  show Max.max 0 (Min.min 1 v) = v
  rw [min_eq_right h1, max_eq_right h0]

/-- The completion step at an index that is not the last, for a list of fewer than
`2 ^ 53` packages: what the progress target is set to. -/
theorem installed_target (env : Env) (m : model) (i : installedPkgMsg)
    (h0 : 0 ≤ m.index) (hlt : m.index < (m.packages.length : Int) - 1)
    (hlen : (m.packages.length : Int) < 2 ^ 53) :
    ∃ m1 eff cmd, Update env m (Msg.installed i) = some (m1, eff, cmd) ∧
      m1.index = m.index + 1 ∧
      m1.progress.targetPercent = float64Div m1.index (m1.packages.length : Int) ∧
      |m1.progress.targetPercent - (m1.index : ℚ) / ((m1.packages.length : Int) : ℚ)|
        ≤ 1 / 2 ^ 54 ∧
      m1.progress.targetPercent < 1 ∧ m1.done = m.done := by
  obtain ⟨m1, eff, cmd, hu, hpk, hnext, _⟩ := installed_step env m i h0 (by omega)
  obtain ⟨hix, hd, hpr, _⟩ := hnext hlt
  obtain ⟨hb0, hb1, hberr⟩ :=
    float64Div_bounds (x := m.index + 1) (y := (m.packages.length : Int))
      (by omega) (by omega) hlen
  have ht : m1.progress.targetPercent
      = float64Div (m.index + 1) (m.packages.length : Int) := by
    rw [hpr]
    exact SetPercent_target env m.progress _ hb0 (le_of_lt hb1)
  refine ⟨m1, eff, cmd, hu, hix, ?_, ?_, ?_, hd⟩
  · rw [ht, hix, hpk]
  · rw [ht, hix, hpk]
    exact hberr
  · rw [ht]
    exact hb1

/-- C6 as amended: at every intermediate step (a completion message handled at a valid
index that is not the last) the progress fraction set by `Update` is
`float64(new index) / float64(total)`, the binary64 value nearest to the ratio of the new
index and the length of the list; it is within `2 ^ -54` of that ratio and below 1, for
every list of fewer than `2 ^ 53` packages and so in every session of a run; the
completion message of the last package sets no fraction at all, so no step before the
final completion sets 1. -/
theorem C6_progress_fraction :
    (∀ (env : Env) (m : model) (i : installedPkgMsg),
      0 ≤ m.index → m.index < (m.packages.length : Int) - 1 →
      (m.packages.length : Int) < 2 ^ 53 →
      ∃ m1 eff cmd, Update env m (Msg.installed i) = some (m1, eff, cmd) ∧
        m1.index = m.index + 1 ∧
        m1.progress.targetPercent = float64Div m1.index (m1.packages.length : Int) ∧
        |m1.progress.targetPercent - (m1.index : ℚ) / ((m1.packages.length : Int) : ℚ)|
          ≤ 1 / 2 ^ 54 ∧
        m1.progress.targetPercent < 1 ∧ m1.done = m.done) ∧
    (∀ (env : Env) (m : model) (i : installedPkgMsg),
      0 ≤ m.index → m.index = (m.packages.length : Int) - 1 →
      ∃ m1 eff cmd, Update env m (Msg.installed i) = some (m1, eff, cmd) ∧
        m1.progress = m.progress ∧ m1.done = true) ∧
    (∀ (env : Env) (s : Session) (i : installedPkgMsg),
      Reachable env s → s.m.index < (s.m.packages.length : Int) - 1 →
      ∃ m1 eff cmd, Update env s.m (Msg.installed i) = some (m1, eff, cmd) ∧
        m1.index = s.m.index + 1 ∧
        m1.progress.targetPercent = float64Div m1.index (m1.packages.length : Int) ∧
        |m1.progress.targetPercent - (m1.index : ℚ) / ((m1.packages.length : Int) : ℚ)|
          ≤ 1 / 2 ^ 54 ∧
        m1.progress.targetPercent < 1 ∧ m1.done = s.m.done) := by
  refine ⟨?_, ?_, ?_⟩
  · intro env m i h0 hlt hlen
    exact installed_target env m i h0 hlt hlen
  · intro env m i h0 he
    obtain ⟨m1, eff, cmd, hu, _, _, hfin⟩ := installed_step env m i h0 (by omega)
    obtain ⟨_, hd, hpr, _⟩ := hfin he
    exact ⟨m1, eff, cmd, hu, hpr, hd⟩
  · intro env s i hr hlt
    have hlen : (s.m.packages.length : Int) < 2 ^ 53 := by
      rw [hr.packages]
      decide
    exact installed_target env s.m i hr.inv.lo hlt hlen

theorem C6_progress_fraction_witness :
    (∃ m1 eff cmd,
      Update plainEnv { newModel with state := 1, index := 2 }
        (Msg.installed { Package := "github.com/charmbracelet/bubbles/progress", Err := none })
        = some (m1, eff, cmd) ∧
      m1.index = 2 + 1 ∧
      m1.progress.targetPercent = float64Div m1.index (m1.packages.length : Int) ∧
      |m1.progress.targetPercent - (m1.index : ℚ) / ((m1.packages.length : Int) : ℚ)|
        ≤ 1 / 2 ^ 54 ∧
      m1.progress.targetPercent < 1 ∧ m1.done = false) ∧
    (∃ m1 eff cmd,
      Update plainEnv confirmedSession.m
        (Msg.installed { Package := "github.com/charmbracelet/bubbles", Err := none })
        = some (m1, eff, cmd) ∧
      m1.index = confirmedSession.m.index + 1 ∧
      m1.progress.targetPercent = float64Div m1.index (m1.packages.length : Int) ∧
      |m1.progress.targetPercent - (m1.index : ℚ) / ((m1.packages.length : Int) : ℚ)|
        ≤ 1 / 2 ^ 54 ∧
      m1.progress.targetPercent < 1 ∧ m1.done = confirmedSession.m.done) :=
  ⟨C6_progress_fraction.1 plainEnv { newModel with state := 1, index := 2 }
      { Package := "github.com/charmbracelet/bubbles/progress", Err := none }
      (by decide) (by decide) (by decide),
   C6_progress_fraction.2.2 plainEnv confirmedSession
      { Package := "github.com/charmbracelet/bubbles", Err := none }
      (reachable_getD plainEnv [Msg.key "enter"] (by decide)) (by decide)⟩

/-- C6 as stated fails: in the run `enter`, completion of the first two packages, the
index is 2; the completion message of the third package moves it to 3 and sets the
progress fraction to `7720456504063707 / 2 ^ 54`, the binary64 value of `3.0 / 7.0`,
which is not the exact ratio `3 / 7`. -/
theorem C6_counterexample :
    Reachable plainEnv secondSession ∧ secondSession.m.index = 2 ∧
    secondSession.inFlight = ["github.com/charmbracelet/bubbles/progress"] ∧
    ∃ m1 eff cmd,
      Update plainEnv secondSession.m
        (Msg.installed { Package := "github.com/charmbracelet/bubbles/progress", Err := none })
        = some (m1, eff, cmd) ∧
      m1.index = 3 ∧ m1.packages.length = 7 ∧
      m1.progress.targetPercent = 7720456504063707 / 18014398509481984 ∧
      m1.progress.targetPercent ≠ (m1.index : ℚ) / ((m1.packages.length : Int) : ℚ) := by
  have hr : Reachable plainEnv secondSession :=
    reachable_getD plainEnv
      (Msg.key "enter" :: completions (getPackages.take 2) [none, none]) (by decide)
  have hidx : secondSession.m.index = 2 := by decide
  have hpk0 : secondSession.m.packages = getPackages := hr.packages
  obtain ⟨m1, eff, cmd, hu, hix, ht, _, _, _⟩ :=
    installed_target plainEnv secondSession.m
      { Package := "github.com/charmbracelet/bubbles/progress", Err := none }
      hr.inv.lo (by rw [hpk0, hidx]; decide) (by rw [hpk0]; decide)
  have hpk : m1.packages = getPackages :=
    (packages_step plainEnv _ m1 _ eff cmd hu).trans hpk0
  have hix3 : m1.index = 3 := by
    rw [hix, hidx]
    rfl
  have hlen : m1.packages.length = 7 := by
    rw [hpk]
    rfl
  have hval : m1.progress.targetPercent = 7720456504063707 / 18014398509481984 := by
    rw [ht, hix3, hlen]
    exact float64Div_three_seven
  refine ⟨hr, hidx, by decide, m1, eff, cmd, hu, hix3, hlen, hval, ?_⟩
  rw [hval, hix3, hlen]
  norm_num

/-! ## Serialized fetches -/

/-- The only messages on which `Update` schedules a fetch, and the fetch scheduled. -/
theorem fetches_cases (env : Env) (m m1 : model) (msg : Msg) (eff : List Effect) (cmd : Cmd)
    (h : Update env m msg = some (m1, eff, cmd)) :
    cmd.fetches = [] ∨
    (m.state = 0 ∧ msg = Msg.key "enter" ∧
      ∃ p, index? m.packages m.index = some p ∧ cmd.fetches = [p]) ∨
    (∃ i p, msg = Msg.installed i ∧ m.index < (m.packages.length : Int) - 1 ∧
      index? m.packages (m.index + 1) = some p ∧ cmd.fetches = [p]) := by
  by_cases hins : ∃ i, msg = Msg.installed i
  · obtain ⟨i, rfl⟩ := hins
    have hb : 0 ≤ m.index ∧ m.index < (m.packages.length : Int) := by
      cases hp : index? m.packages m.index with
      | none => simp [Update, hp] at h
      | some p => exact index?_some_bounds hp
    obtain ⟨m2, eff2, cmd2, hu, _, hnext, hfin⟩ := installed_step env m i hb.1 hb.2
    rw [hu] at h
    simp only [Option.some.injEq, Prod.mk.injEq] at h
    obtain ⟨_, _, hc⟩ := h
    subst hc
    by_cases hlt : m.index < (m.packages.length : Int) - 1
    · obtain ⟨_, _, _, next, hn, hf⟩ := hnext hlt
      exact Or.inr (Or.inr ⟨i, next, rfl, hlt, hn, hf⟩)
    · have he : m.index = (m.packages.length : Int) - 1 := by omega
      exact Or.inl (hfin he).2.2.2.1
  · have hni : ∀ i, msg ≠ Msg.installed i := fun i e => hins ⟨i, e⟩
    by_cases hent : m.state = 0 ∧ msg = Msg.key "enter"
    · obtain ⟨h0, rfl⟩ := hent
      cases hp : index? m.packages m.index with
      | none => simp [Update, h0, hp] at h
      | some p =>
        rw [Update_enter env m p h0 hp] at h
        simp only [Option.some.injEq, Prod.mk.injEq] at h
        obtain ⟨_, _, hc⟩ := h
        subst hc
        exact Or.inr (Or.inl ⟨h0, rfl, p, rfl, rfl⟩)
    · obtain ⟨m2, c2, hu, _, _, _, _, _, hf⟩ := Update_passive env m msg hni hent
      rw [hu] at h
      simp only [Option.some.injEq, Prod.mk.injEq] at h
      obtain ⟨_, _, hc⟩ := h
      subst hc
      exact Or.inl hf

/-- In a session of a run every message that can arrive is handled without panic. -/
theorem runStep_total (env : Env) (s : Session) (msg : Msg) (hinv : s.Inv)
    (hin : ∀ i, msg = Msg.installed i → i.Package ∈ s.inFlight) :
    ∃ s1, runStep env s msg = some s1 := by
  by_cases hins : ∃ i, msg = Msg.installed i
  · obtain ⟨i, rfl⟩ := hins
    obtain ⟨m1, eff, cmd, hu, _⟩ := installed_step env s.m i hinv.lo hinv.hi
    exact ⟨_, by simp only [runStep, if_pos (hin i rfl), deliver, hu]; rfl⟩
  · have hni : ∀ i, msg ≠ Msg.installed i := fun i e => hins ⟨i, e⟩
    rw [runStep_not_installed env s msg hni]
    by_cases hent : s.m.state = 0 ∧ msg = Msg.key "enter"
    · obtain ⟨h0, rfl⟩ := hent
      obtain ⟨p, hp⟩ := index?_isSome _ _ hinv.lo hinv.hi
      exact ⟨_, by simp only [deliver, Update_enter env s.m p h0 hp]; rfl⟩
    · obtain ⟨m2, c2, hu, _⟩ := Update_passive env s.m msg hni hent
      exact ⟨_, by simp only [deliver, hu]; rfl⟩

/-- C10: in every session of a run from the start at most one fetch is in flight.
`Update` schedules a fetch only for `enter` in the Prompting stage and for a completion
message at an index that is not the last, one fetch each time, and for no other message.
In a run, `enter` schedules its fetch when nothing is in flight, and a completion message
schedules its fetch after retiring the one fetch in flight.  No message that can arrive
makes a session of a run panic. -/
theorem C10_serialized :
    (∀ (env : Env) (s : Session), Reachable env s → s.inFlight.length ≤ 1) ∧
    (∀ (env : Env) (m m1 : model) (msg : Msg) (eff : List Effect) (cmd : Cmd),
      Update env m msg = some (m1, eff, cmd) →
      cmd.fetches = [] ∨
      (m.state = 0 ∧ msg = Msg.key "enter" ∧
        ∃ p, index? m.packages m.index = some p ∧ cmd.fetches = [p]) ∨
      (∃ i p, msg = Msg.installed i ∧ m.index < (m.packages.length : Int) - 1 ∧
        index? m.packages (m.index + 1) = some p ∧ cmd.fetches = [p])) ∧
    (∀ (env : Env) (s s1 : Session) (msg : Msg) (m1 : model) (eff : List Effect) (cmd : Cmd),
      Reachable env s → runStep env s msg = some s1 →
      Update env s.m msg = some (m1, eff, cmd) → cmd.fetches ≠ [] →
      s1.inFlight = cmd.fetches ∧
      ((msg = Msg.key "enter" ∧ s.m.state = 0 ∧ s.inFlight = []) ∨
       (∃ i, msg = Msg.installed i ∧ s.inFlight = [i.Package]))) ∧
    (∀ (env : Env) (s : Session) (msg : Msg), Reachable env s →
      (∀ i, msg = Msg.installed i → i.Package ∈ s.inFlight) →
      ∃ s1, runStep env s msg = some s1) := by
  refine ⟨?_, ?_, ?_, ?_⟩
  · intro env s hr
    have hinv := hr.inv
    rcases hinv.stage with h0 | h1
    · rw [(hinv.prompting h0).1]
      decide
    · rcases hinv.installing h1 with ⟨_, p, _, hfl⟩ | ⟨_, hfl, _⟩
      · rw [hfl]
        exact le_refl 1
      · rw [hfl]
        decide
  · intro env m m1 msg eff cmd h
    exact fetches_cases env m m1 msg eff cmd h
  · intro env s s1 msg m1 eff cmd hr hstep hu hne
    have hinv := hr.inv
    rcases fetches_cases env s.m m1 msg eff cmd hu with hnil | ⟨h0, rfl, _⟩ | ⟨i, p, rfl, _⟩
    · exact absurd hnil hne
    · have hfl := (hinv.prompting h0).1
      simp only [runStep, deliver, hu, Option.some.injEq] at hstep
      subst hstep
      refine ⟨?_, Or.inl ⟨rfl, h0, hfl⟩⟩
      show s.inFlight ++ cmd.fetches = cmd.fetches
      rw [hfl]
      rfl
    · simp only [runStep] at hstep
      split_ifs at hstep with hmem
      have hst : s.m.state = 1 := by
        rcases hinv.stage with h0 | h1
        · rw [(hinv.prompting h0).1] at hmem
          cases hmem
        · exact h1
      have hfl : s.inFlight = [i.Package] := by
        rcases hinv.installing hst with ⟨_, q, _, hq⟩ | ⟨_, hq, _⟩
        · rw [hq] at hmem
          have : i.Package = q := by simpa using hmem
          rw [hq, this]
        · rw [hq] at hmem
          cases hmem
      simp only [deliver, hu, Option.some.injEq] at hstep
      subst hstep
      refine ⟨?_, Or.inr ⟨i, rfl, hfl⟩⟩
      show s.inFlight.erase i.Package ++ cmd.fetches = cmd.fetches
      rw [hfl]
      simp
  · intro env s msg hr hin
    exact runStep_total env s msg hr.inv hin

theorem C10_serialized_witness :
    confirmedSession.inFlight = ["github.com/charmbracelet/bubbles"] ∧
    confirmedSession.inFlight.length ≤ 1 ∧
    ∃ s1,
      runStep plainEnv confirmedSession
        (Msg.installed { Package := "github.com/charmbracelet/bubbles", Err := none })
        = some s1 :=
  ⟨by decide,
   C10_serialized.1 plainEnv confirmedSession
     (reachable_getD plainEnv [Msg.key "enter"] (by decide)),
   C10_serialized.2.2.2 plainEnv confirmedSession
     (Msg.installed { Package := "github.com/charmbracelet/bubbles", Err := none })
     (reachable_getD plainEnv [Msg.key "enter"] (by decide))
     (fun i h => by
       cases h
       decide)⟩

/-! ## A whole installation -/

theorem index?_of_drop {ps : List String} {k : Nat} {p : String} {tail : List String}
    (h : ps.drop k = p :: tail) :
    index? ps (k : Int) = some p ∧ ps.drop (k + 1) = tail ∧
      (ps.length : Int) = (k : Int) + 1 + (tail.length : Int) := by
  have h1 : ps[k]? = some p := by
    rw [← List.head?_drop, h]
    rfl
  have h2 : ps.drop (k + 1) = tail := by
    rw [← List.tail_drop, h]
    rfl
  have h3 : ps.length - k = tail.length + 1 := by
    have := congrArg List.length h
    simpa using this
  refine ⟨?_, h2, by omega⟩
  rw [index?_eq (by omega)]
  simpa using h1

theorem quits_next (env : Env) (c : WidgetCmd) (pkg next : String) :
    (Cmd.Batch [Atom.ofWidget c, successMark env pkg, downloadAndInstall next]).quits
      = false := by
  cases c <;> rfl

/-- From a session whose in-flight fetch is the package at the index, delivering the
completion messages of that package and of all later ones finishes the installation. -/
theorem run_completions (env : Env) (ps : List String) :
    ∀ (tail : List String) (errs : List (Option String)) (k : Nat) (s : Session) (p : String),
      s.m.packages = ps → s.m.index = (k : Int) → ps.drop k = p :: tail →
      s.inFlight = [p] → errs.length = tail.length + 1 →
      ∃ s1, run env s (completions (p :: tail) errs) = some s1 ∧
        s1.m.done = true ∧ s1.m.index = (ps.length : Int) - 1 ∧ s1.inFlight = [] ∧
        s1.m.packages = ps ∧ s1.m.state = s.m.state ∧ s1.m.project = s.m.project ∧
        fetchesOf s1.log = fetchesOf s.log ++ tail ∧
        writesOf s1.log = writesOf s.log ∧
        (cmdsOf s1.log).map Cmd.quits
          = (cmdsOf s.log).map Cmd.quits ++ List.replicate tail.length false ++ [true] := by
  intro tail
  induction tail with
  | nil =>
    intro errs k s p hpk hix hdrop hfl hlen
    obtain ⟨e, rfl⟩ : ∃ e, errs = [e] := by
      match errs, hlen with
      | [e], _ => exact ⟨e, rfl⟩
    obtain ⟨hp, _, hl⟩ := index?_of_drop hdrop
    have hp2 : index? s.m.packages s.m.index = some p := by rw [hpk, hix]; exact hp
    have hlast : s.m.index ≥ (s.m.packages.length : Int) - 1 := by
      rw [hpk, hix, hl]
      simp
    have hu := Update_installed_final env s.m { Package := p, Err := e } p hp2 hlast
    have hmem : p ∈ s.inFlight := by rw [hfl]; exact List.mem_singleton.mpr rfl
    have her : s.inFlight.erase p = [] := by rw [hfl]; simp
    refine ⟨{ m := { s.m with done := true }, inFlight := [],
              log := s.log ++ (failureReport { Package := p, Err := e }).map Event.effect ++
                [Event.cmd (Cmd.Sequence [successMark env p, Atom.Quit])] }, ?_, rfl, ?_, rfl,
            hpk, rfl, rfl, ?_, ?_, ?_⟩
    · simp only [completions, List.zipWith, run, runStep, if_pos hmem, deliver, hu, her]
      rfl
    · show s.m.index = (ps.length : Int) - 1
      rw [hix, hl]
      simp
    · rw [fetchesOf_step, fetches_final, List.append_nil]
    · rw [writesOf_step, failureReport_writes, List.append_nil]
    · rw [cmdsOf_step, List.map_append]
      simp only [List.length_nil, List.replicate_zero, List.append_nil, List.map_cons,
        List.map_nil]
      rfl
  | cons q tail2 ih =>
    intro errs k s p hpk hix hdrop hfl hlen
    obtain ⟨e, es, rfl⟩ : ∃ e es, errs = e :: es := by
      match errs, hlen with
      | e :: es, _ => exact ⟨e, es, rfl⟩
    have hes : es.length = tail2.length + 1 := by simpa using hlen
    obtain ⟨hp, hdrop2, hl⟩ := index?_of_drop hdrop
    obtain ⟨hq, _, _⟩ := index?_of_drop hdrop2
    have hp2 : index? s.m.packages s.m.index = some p := by rw [hpk, hix]; exact hp
    have hq2 : index? s.m.packages (s.m.index + 1) = some q := by
      rw [hpk, hix]
      exact_mod_cast hq
    have hlt : s.m.index < (s.m.packages.length : Int) - 1 := by
      rw [hpk, hix, hl]
      simp only [List.length_cons]
      push_cast
      omega
    have hu := Update_installed_next env s.m { Package := p, Err := e } p q hp2 hq2 hlt
    have hmem : p ∈ s.inFlight := by rw [hfl]; exact List.mem_singleton.mpr rfl
    have her : s.inFlight.erase p = [] := by rw [hfl]; simp
    obtain ⟨s1, hrun, hd, hi1, hf1, hp1, hst1, hpr1, hfe1, hw1, hq1⟩ :=
      ih es (k + 1)
        { m := { s.m with
                  index := s.m.index + 1,
                  progress := (s.m.progress.SetPercent env
                    (float64Div (s.m.index + 1) (s.m.packages.length : Int))).1 },
          inFlight := [q],
          log := s.log ++ (failureReport { Package := p, Err := e }).map Event.effect ++
            [Event.cmd (Cmd.Batch
              [Atom.ofWidget (s.m.progress.SetPercent env
                  (float64Div (s.m.index + 1) (s.m.packages.length : Int))).2,
               successMark env p, downloadAndInstall q])] }
        q hpk (by show s.m.index + 1 = ((k + 1 : Nat) : Int); rw [hix]; push_cast; rfl)
        hdrop2 rfl hes
    refine ⟨s1, ?_, hd, hi1, hf1, hp1, hst1, hpr1, ?_, ?_, ?_⟩
    · have hstep : runStep env s (Msg.installed { Package := p, Err := e }) = some
          { m := { s.m with
                    index := s.m.index + 1,
                    progress := (s.m.progress.SetPercent env
                      (float64Div (s.m.index + 1) (s.m.packages.length : Int))).1 },
            inFlight := [q],
            log := s.log ++ (failureReport { Package := p, Err := e }).map Event.effect ++
              [Event.cmd (Cmd.Batch
                [Atom.ofWidget (s.m.progress.SetPercent env
                    (float64Div (s.m.index + 1) (s.m.packages.length : Int))).2,
                 successMark env p, downloadAndInstall q])] } := by
        simp only [runStep, if_pos hmem, deliver, hu, her, fetches_next]
        rfl
      show run env s (Msg.installed { Package := p, Err := e } :: completions (q :: tail2) es)
        = some s1
      simp only [run, hstep]
      exact hrun
    · rw [hfe1, fetchesOf_step, fetches_next, List.append_assoc]
      rfl
    · rw [hw1, writesOf_step, failureReport_writes, List.append_nil]
    · rw [hq1, cmdsOf_step, List.map_append, List.map_cons, List.map_nil, quits_next]
      simp [List.replicate_succ, List.append_assoc]

/-- The error carried by a completion message only decides what is printed. -/
theorem Update_err_irrelevant (env : Env) (m m1 : model) (p : String) (e1 e2 : Option String)
    (eff : List Effect) (cmd : Cmd)
    (h : Update env m (Msg.installed { Package := p, Err := e1 }) = some (m1, eff, cmd)) :
    Update env m (Msg.installed { Package := p, Err := e2 })
      = some (m1, failureReport { Package := p, Err := e2 }, cmd) := by
  cases hp : index? m.packages m.index with
  | none => simp [Update, hp] at h
  | some pkg =>
    by_cases hlast : m.index ≥ (m.packages.length : Int) - 1
    · rw [Update_installed_final env m _ pkg hp hlast] at h
      rw [Update_installed_final env m _ pkg hp hlast]
      simp only [Option.some.injEq, Prod.mk.injEq] at h
      rw [h.1, h.2.2]
    · have hlt : m.index < (m.packages.length : Int) - 1 := not_le.mp hlast
      have hb := index?_some_bounds hp
      obtain ⟨next, hn⟩ := index?_isSome m.packages (m.index + 1)
        (by omega) (by omega)
      rw [Update_installed_next env m _ pkg next hp hn hlt] at h
      rw [Update_installed_next env m _ pkg next hp hn hlt]
      simp only [Option.some.injEq, Prod.mk.injEq] at h
      rw [h.1, h.2.2]

theorem run_err_irrelevant (env : Env) :
    ∀ (ps : List String) (errs1 errs2 : List (Option String)) (s t s1 : Session),
      errs1.length = errs2.length → t.m = s.m → t.inFlight = s.inFlight →
      cmdsOf t.log = cmdsOf s.log →
      run env s (completions ps errs1) = some s1 →
      ∃ t1, run env t (completions ps errs2) = some t1 ∧ t1.m = s1.m ∧
        t1.inFlight = s1.inFlight ∧ cmdsOf t1.log = cmdsOf s1.log := by
  intro ps
  induction ps with
  | nil =>
    intro errs1 errs2 s t s1 _ hm hf hc h
    simp only [completions, List.zipWith_nil_left, run, Option.some.injEq] at h
    subst h
    exact ⟨t, by simp only [completions, List.zipWith_nil_left, run], hm, hf, hc⟩
  | cons p ps ih =>
    intro errs1 errs2 s t s1 hlen hm hf hc h
    match errs1, errs2, hlen with
    | [], [], _ =>
      simp only [completions, List.zipWith_nil_right, run, Option.some.injEq] at h
      subst h
      exact ⟨t, by simp only [completions, List.zipWith_nil_right, run], hm, hf, hc⟩
    | e1 :: es1, e2 :: es2, hlen =>
      have hlen2 : es1.length = es2.length := by simpa using hlen
      have hrun : run env s (Msg.installed { Package := p, Err := e1 } :: completions ps es1)
          = some s1 := h
      simp only [run, runStep] at hrun
      by_cases hmem : p ∈ s.inFlight
      · rw [if_pos hmem] at hrun
        unfold deliver at hrun
        dsimp only at hrun
        cases hu : Update env s.m (Msg.installed { Package := p, Err := e1 }) with
        | none => simp [hu] at hrun
        | some r =>
          obtain ⟨m2, eff, cmd⟩ := r
          simp only [hu] at hrun
          have hu2 := Update_err_irrelevant env s.m m2 p e1 e2 eff cmd hu
          have hmem2 : p ∈ t.inFlight := by rw [hf]; exact hmem
          obtain ⟨t1, ht1, r1, r2, r3⟩ := ih es1 es2
            { m := m2, inFlight := s.inFlight.erase p ++ cmd.fetches,
              log := s.log ++ eff.map Event.effect ++ [Event.cmd cmd] }
            { m := m2, inFlight := t.inFlight.erase p ++ cmd.fetches,
              log := t.log ++ (failureReport { Package := p, Err := e2 }).map Event.effect ++
                [Event.cmd cmd] }
            s1 hlen2 rfl
            (by show t.inFlight.erase p ++ cmd.fetches = s.inFlight.erase p ++ cmd.fetches
                rw [hf])
            (by show cmdsOf (t.log ++ _ ++ [Event.cmd cmd]) = cmdsOf (s.log ++ _ ++ [Event.cmd cmd])
                rw [cmdsOf_step, cmdsOf_step, hc])
            hrun
          refine ⟨t1, ?_, r1, r2, r3⟩
          show run env t (Msg.installed { Package := p, Err := e2 } :: completions ps es2)
            = some t1
          have hstep2 : runStep env t (Msg.installed { Package := p, Err := e2 }) = some
              { m := m2, inFlight := t.inFlight.erase p ++ cmd.fetches,
                log := t.log ++ (failureReport { Package := p, Err := e2 }).map Event.effect ++
                  [Event.cmd cmd] } := by
            simp only [runStep, if_pos hmem2, deliver, hm, hu2]
          simp only [run, hstep2]
          exact ht1
      · rw [if_neg hmem] at hrun
        cases hrun

/-- The run `enter`, then one completion message per package, from a Prompting session
with nothing in flight. -/
theorem run_install (env : Env) (s : Session) (errs : List (Option String))
    (hs : s.m.state = 0) (hi : s.m.index = 0) (hfl : s.inFlight = [])
    (hp : s.m.packages ≠ []) (hlen : errs.length = s.m.packages.length) :
    ∃ s1, run env s (Msg.key "enter" :: completions s.m.packages errs) = some s1 ∧
      s1.m.done = true ∧ s1.m.index = (s.m.packages.length : Int) - 1 ∧ s1.inFlight = [] ∧
      s1.m.packages = s.m.packages ∧ s1.m.state = 1 ∧ s1.m.project = s.m.textInput.value ∧
      fetchesOf s1.log = fetchesOf s.log ++ s.m.packages ∧
      writesOf s1.log
        = writesOf s.log ++ [("go.mod", "module " ++ s.m.textInput.value ++ "\n\ngo 1.20")] ∧
      (cmdsOf s1.log).map Cmd.quits
        = (cmdsOf s.log).map Cmd.quits ++
            List.replicate s.m.packages.length false ++ [true] := by
  obtain ⟨first, rest, hpk⟩ := List.exists_cons_of_ne_nil hp
  have hidx : index? s.m.packages s.m.index = some first := by
    rw [hi, hpk]
    simp [index?]
  have hu := Update_enter env s.m first hs hidx
  have hstep : runStep env s (Msg.key "enter") = some
      { m := { s.m with project := s.m.textInput.value, state := 1 },
        inFlight := [first],
        log := s.log ++ (createGoModFile env s.m.textInput.value).map Event.effect ++
          [Event.cmd (Cmd.Batch [downloadAndInstall first, Atom.spinnerTick])] } := by
    simp only [runStep, deliver, hu, fetches_enter, hfl]
    rfl
  have hlen2 : errs.length = rest.length + 1 := by
    rw [hlen, hpk]
    rfl
  obtain ⟨s1, hrun, hd, hi1, hf1, hp1, hst1, hpr1, hfe1, hw1, hq1⟩ :=
    run_completions env s.m.packages rest errs 0
      { m := { s.m with project := s.m.textInput.value, state := 1 },
        inFlight := [first],
        log := s.log ++ (createGoModFile env s.m.textInput.value).map Event.effect ++
          [Event.cmd (Cmd.Batch [downloadAndInstall first, Atom.spinnerTick])] }
      first rfl (show s.m.index = ((0 : Nat) : Int) from hi)
      (by rw [hpk]; rfl) rfl hlen2
  refine ⟨s1, ?_, hd, hi1, hf1, hp1, hst1, hpr1, ?_, ?_, ?_⟩
  · have hc : completions s.m.packages errs = completions (first :: rest) errs := by rw [hpk]
    simp only [run, hstep]
    rw [hc]
    exact hrun
  · rw [hfe1, fetchesOf_step, fetches_enter, List.append_assoc, hpk]
    rfl
  · rw [hw1, writesOf_step, createGoModFile_writes]
  · rw [hq1, cmdsOf_step, List.map_append, hpk]
    simp [List.replicate_succ, List.append_assoc, Cmd.quits, Cmd.atoms, downloadAndInstall]

/-- C3: from a Prompting record at index 0 with a non-empty list of N packages, confirmation
followed by N completion messages, whatever errors they carry, runs to the end; the fetches
scheduled are exactly the N packages in list order; the flag is set and nothing is left in
flight; of the N + 1 commands returned only the last, the answer to the N-th completion
message, quits; and the final record and the commands are the same for any other errors. -/
theorem C3_failures_do_not_halt (env : Env) (m0 : model) (errs : List (Option String))
    (hs : m0.state = 0) (hi : m0.index = 0) (hp : m0.packages ≠ [])
    (hlen : errs.length = m0.packages.length) :
    ∃ s1,
      run env { m := m0, inFlight := [], log := [] }
        (Msg.key "enter" :: completions m0.packages errs) = some s1 ∧
      fetchesOf s1.log = m0.packages ∧
      s1.m.done = true ∧ s1.inFlight = [] ∧
      (cmdsOf s1.log).map Cmd.quits = List.replicate m0.packages.length false ++ [true] ∧
      ∀ errs2 : List (Option String), errs2.length = m0.packages.length →
        ∃ s2,
          run env { m := m0, inFlight := [], log := [] }
            (Msg.key "enter" :: completions m0.packages errs2) = some s2 ∧
          s2.m = s1.m ∧ cmdsOf s2.log = cmdsOf s1.log := by
  obtain ⟨s1, hrun, hd, _, hf1, _, _, _, hfe, _, hq⟩ :=
    run_install env { m := m0, inFlight := [], log := [] } errs hs hi rfl hp hlen
  refine ⟨s1, hrun, ?_, hd, hf1, ?_, ?_⟩
  · rw [hfe]
    rfl
  · rw [hq]
    rfl
  · intro errs2 hlen2
    have hrun1 : run env { m := m0, inFlight := [], log := [] }
        (Msg.key "enter" :: completions m0.packages errs) = some s1 := hrun
    simp only [run] at hrun1
    cases hstep : runStep env { m := m0, inFlight := [], log := [] } (Msg.key "enter") with
    | none => simp [hstep] at hrun1
    | some sA =>
      simp only [hstep] at hrun1
      obtain ⟨t1, ht1, r1, _, r3⟩ :=
        run_err_irrelevant env m0.packages errs errs2 sA sA s1
          (hlen.trans hlen2.symm) rfl rfl rfl hrun1
      refine ⟨t1, ?_, r1, r3⟩
      simp only [run, hstep]
      exact ht1

theorem C3_failures_do_not_halt_witness :
    ∃ s1,
      run plainEnv { m := newModel, inFlight := [], log := [] }
        (Msg.key "enter" :: completions newModel.packages (List.replicate 7 (some "exit status 1")))
        = some s1 ∧
      fetchesOf s1.log = newModel.packages ∧
      s1.m.done = true ∧ s1.inFlight = [] ∧
      (cmdsOf s1.log).map Cmd.quits = List.replicate newModel.packages.length false ++ [true] ∧
      ∀ errs2 : List (Option String), errs2.length = newModel.packages.length →
        ∃ s2,
          run plainEnv { m := newModel, inFlight := [], log := [] }
            (Msg.key "enter" :: completions newModel.packages errs2) = some s2 ∧
          s2.m = s1.m ∧ cmdsOf s2.log = cmdsOf s1.log :=
  C3_failures_do_not_halt plainEnv newModel (List.replicate 7 (some "exit status 1"))
    rfl rfl (by decide) (by decide)

/-! ## End to end -/

theorem View_done (env : Env) (m : model) (hs : m.state = 1) (hd : m.done = true) :
    View env m
      = some (env.renderDone
          ("Done! Installed " ++ toString m.packages.length ++ " packages.\n")) := by
  have h0 : m.state ≠ 0 := by omega
  simp only [View, if_neg h0, if_pos hs, hd, if_true, Sprintf_done]
  rfl

/-- C9: from any session of a run that is still in the Prompting stage and whose text input
holds `example.com/foo`, `enter` followed by one completion message for each of the packages
runs to the end; the one file written is `go.mod` with first line `module example.com/foo`;
the fetches scheduled are the seven packages of `getPackages` in their order; and the final
view is the done style applied to `Done! Installed 7 packages.`.  In general the view of a
done record in the Installing stage is the done style applied to the one line
`Done! Installed <len(packages)> packages.`. -/
theorem C9_end_to_end (env : Env) (s : Session) (errs : List (Option String))
    (hr : Reachable env s) (hs : s.m.state = 0)
    (hv : s.m.textInput.value = "example.com/foo") (hlen : errs.length = 7) :
    (∃ s1,
      run env s (Msg.key "enter" :: completions getPackages errs) = some s1 ∧
      writesOf s1.log = [("go.mod", "module example.com/foo\n\ngo 1.20")] ∧
      firstLine "module example.com/foo\n\ngo 1.20" = "module example.com/foo" ∧
      s1.m.project = "example.com/foo" ∧
      fetchesOf s1.log = getPackages ∧ getPackages.length = 7 ∧
      s1.m.state = 1 ∧ s1.m.done = true ∧ s1.inFlight = [] ∧
      View env s1.m = some (env.renderDone "Done! Installed 7 packages.\n")) ∧
    (∀ m : model, m.state = 1 → m.done = true →
      View env m
        = some (env.renderDone
            ("Done! Installed " ++ toString m.packages.length ++ " packages.\n"))) := by
  refine ⟨?_, fun m h1 hd => View_done env m h1 hd⟩
  have hinv := hr.inv
  have hpk := hr.packages
  obtain ⟨hfl, hix, _, hf0, hw0⟩ := hinv.prompting hs
  have hne : s.m.packages ≠ [] := by
    rw [hpk]
    decide
  have hlen2 : errs.length = s.m.packages.length := by
    rw [hpk, hlen]
    rfl
  obtain ⟨s1, hrun, hd, _, hf1, hp1, hst1, hpr1, hfe, hw, _⟩ :=
    run_install env s errs hs hix hfl hne hlen2
  refine ⟨s1, ?_, ?_, by decide, ?_, ?_, rfl, hst1, hd, hf1, ?_⟩
  · rw [← hpk]
    exact hrun
  · rw [hw, hw0, hv]
    rfl
  · rw [hpr1, hv]
  · rw [hfe, hf0, hpk]
    rfl
  · rw [View_done env s1.m hst1 hd, hp1, hpk]
    rfl

theorem C9_end_to_end_witness :
    (∃ s1,
      run plainEnv typedSession
        (Msg.key "enter" :: completions getPackages (List.replicate 7 none)) = some s1 ∧
      writesOf s1.log = [("go.mod", "module example.com/foo\n\ngo 1.20")] ∧
      firstLine "module example.com/foo\n\ngo 1.20" = "module example.com/foo" ∧
      s1.m.project = "example.com/foo" ∧
      fetchesOf s1.log = getPackages ∧ getPackages.length = 7 ∧
      s1.m.state = 1 ∧ s1.m.done = true ∧ s1.inFlight = [] ∧
      View plainEnv s1.m = some (plainEnv.renderDone "Done! Installed 7 packages.\n")) ∧
    (∀ m : model, m.state = 1 → m.done = true →
      View plainEnv m
        = some (plainEnv.renderDone
            ("Done! Installed " ++ toString m.packages.length ++ " packages.\n"))) :=
  C9_end_to_end plainEnv typedSession (List.replicate 7 none)
    ⟨typedKeys, by decide⟩ rfl rfl rfl

end CharmGet
